import Mathlib

/-!
Verification of the secret index and substitution engine of the
`uu-secret-manager` repository (TypeScript sources under `src/`).

Strings are modelled as `List Char` (`Str`).  The JavaScript string
primitives used by the code (`String.prototype.includes`,
`String.prototype.split`, `Array.prototype.join`) are embedded with their
ECMAScript semantics, and the Node.js `path.posix` functions used by the
code (`basename`, `extname`, `dirname`, `join`) are embedded following the
algorithms of Node's `lib/path.js`.
-/

namespace USM

abbrev Str := List Char

/-! ## Data model (src/src/vault.ts)

`SecretData` is the union type `SecretData | string` of the source: a
legacy entry is a bare string, a current entry is an object with fields
`secret`, `description?`, `created?`, `name?`. -/

inductive SecretData where
  | legacy (secret : Str)
  | record (secret : Str) (description : Option Str) (created : Option Str)
      (name : Option Str)
deriving DecidableEq, Repr

/-- The secret value: `typeof data === 'string' ? data : data.secret`. -/
def SecretData.secretValue : SecretData → Str
  | .legacy s => s
  | .record s _ _ _ => s

/-- A catalogue (`SecretsMap`) as the ordered entry list produced by
`Object.entries(secrets)`: string keys that are not array indices are
enumerated in insertion order. -/
abbrev SecretsMap := List (Str × SecretData)

/-- One element of the persisted index (`IndexedFile` in the source). -/
structure IndexedFile where
  path : Str
  secretIds : List Str
deriving DecidableEq, Repr

/-- The decrypted store payload: `{ secrets, index? }`. -/
structure SecretsStore where
  secrets : SecretsMap
  index : Option (List IndexedFile)
deriving DecidableEq, Repr

/-- Source `getPlaceholderId`: the custom name when the entry is an object
with a truthy `name` (the empty string is falsy in JavaScript), otherwise
the key (UUID). -/
def getPlaceholderId (id : Str) : SecretData → Str
  | .legacy _ => id
  | .record _ _ _ none => id
  | .record _ _ _ (some n) => if n = [] then id else n

/-- Source `generatePlaceholder`: the fixed delimiters around the
placeholder identifier. -/
def generatePlaceholder (id : Str) (data : SecretData) : Str :=
  String.toList "<!secret_" ++ getPlaceholderId id data ++ String.toList "!>"

/-! ## JavaScript string primitives -/

/-- ECMAScript `String.prototype.includes`: the empty string is contained
in every string, and a nonempty pattern is contained iff it matches at
some position. -/
def jsIncludes : Str → Str → Bool
  | [], pat => pat.isPrefixOf []
  | c :: t, pat => pat.isPrefixOf (c :: t) || jsIncludes t pat

/-- Fuelled worker for `String.prototype.split` with a nonempty separator:
scan left to right, cutting at every non-overlapping occurrence. -/
def jsSplitF : Nat → Str → Str → List Str
  | 0, _, _ => [[]]
  | Nat.succ n, pat, c =>
    if pat ≠ [] ∧ pat.isPrefixOf c then
      [] :: jsSplitF n pat (c.drop pat.length)
    else
      match c with
      | [] => [[]]
      | ch :: t => (jsSplitF n pat t).modifyHead (ch :: ·)

/-- `String.prototype.split` with a nonempty separator. -/
def jsSplitNE (pat c : Str) : List Str :=
  jsSplitF (c.length + 1) pat c

/-- ECMAScript `String.prototype.split`: an empty separator splits the
string into its individual characters (with no leading or trailing empty
parts); a nonempty separator cuts at each occurrence. -/
def jsSplit (c pat : Str) : List Str :=
  if pat = [] then c.map (fun ch => [ch]) else jsSplitNE pat c

/-- ECMAScript `Array.prototype.join` on string arrays. -/
def jsJoin (sep : Str) : List Str → Str
  | [] => []
  | [x] => x
  | x :: y :: rest => x ++ sep ++ jsJoin sep (y :: rest)

/-! ## The shared per-file substitution core
(`encryptSecretsInFile` / `decryptSecretsInFile`, src/src/vault.ts 340-388,
with the file I/O stripped to the content transformation:
`content.split(source).join(target)` guarded by `content.includes(source)`,
iterated over `Object.entries(secrets)`). -/

/-- One iteration of the `Object.entries(secrets).forEach` loop of
`encryptSecretsInFile`. -/
def encryptStep (acc : Str × Bool) (e : Str × SecretData) : Str × Bool :=
  let secret := e.2.secretValue
  let placeholder := generatePlaceholder e.1 e.2
  if jsIncludes acc.1 secret then
    (jsJoin placeholder (jsSplit acc.1 secret), true)
  else
    acc

/-- Content transformation of `encryptSecretsInFile`: the returned Boolean
is the `changed` flag (and the file is rewritten exactly when it is
`true`). -/
def encryptContent (secrets : SecretsMap) (content : Str) : Str × Bool :=
  secrets.foldl encryptStep (content, false)

/-- One iteration of the `Object.entries(secrets).forEach` loop of
`decryptSecretsInFile`. -/
def decryptStep (acc : Str × Bool) (e : Str × SecretData) : Str × Bool :=
  let secret := e.2.secretValue
  let placeholder := generatePlaceholder e.1 e.2
  if jsIncludes acc.1 placeholder then
    (jsJoin secret (jsSplit acc.1 placeholder), true)
  else
    acc

/-- Content transformation of `decryptSecretsInFile`. -/
def decryptContent (secrets : SecretsMap) (content : Str) : Str × Bool :=
  secrets.foldl decryptStep (content, false)

/-! ## Catalogue lookups (src/src/vault.ts 195-233) -/

/-- The test of the `findSecretByName` loop:
`typeof data === 'object' && data.name === name`. -/
def isNameMatch (name : Str) (e : Str × SecretData) : Bool :=
  match e.2 with
  | .record _ _ _ (some n) => n = name
  | _ => false

/-- Source `findSecretByName`: first entry (in `Object.entries` order)
whose object data carries exactly this custom name. -/
def findSecretByName (secrets : SecretsMap) (name : Str) : Option (Str × SecretData) :=
  secrets.find? (isNameMatch name)

/-- Source `nameExists`. -/
def nameExists (secrets : SecretsMap) (name : Str) : Bool :=
  (findSecretByName secrets name).isSome

/-- JavaScript property access `secrets[key]` on the catalogue object. -/
def jsObjGet (secrets : SecretsMap) (key : Str) : Option SecretData :=
  (secrets.find? (fun e => e.1 = key)).map (·.2)

/-- JavaScript truthiness of a `SecretData | string` value: an empty legacy
string is falsy, every object is truthy. -/
def SecretData.truthy : SecretData → Bool
  | .legacy s => s ≠ []
  | .record _ _ _ _ => true

/-- Source `findSecretByIdentifier`: first try the custom name, then the
UUID key — the key branch is guarded by `if (secrets[identifier])`, a JS
truthiness test on the stored value. -/
def findSecretByIdentifier (secrets : SecretsMap) (identifier : Str) :
    Option (Str × SecretData) :=
  match findSecretByName secrets identifier with
  | some r => some r
  | none =>
    match jsObjGet secrets identifier with
    | some d => if d.truthy then some (identifier, d) else none
    | none => none

/-! ## Node path.posix model (lib/path.js algorithms) -/

/-- Node `path.posix.basename` (one argument): drop trailing separators,
then take everything after the last separator. -/
def posixBasename (p : Str) : Str :=
  ((p.reverse.dropWhile (· = '/')).takeWhile (· ≠ '/')).reverse

/-- Node `path.posix.basename(path, ext)`: additionally strips `ext` when
it is a proper suffix of the computed basename (returns the empty string
when `ext` equals the whole path, and leaves the basename alone when the
basename itself equals `ext`). -/
def posixBasenameExt (p ext : Str) : Str :=
  if ext ≠ [] ∧ ext.length ≤ p.length then
    if ext = p then []
    else if ext = posixBasename p then posixBasename p
    else if ext.isSuffixOf (posixBasename p) then
      (posixBasename p).take ((posixBasename p).length - ext.length)
    else posixBasename p
  else posixBasename p

/-- Node `path.posix.extname` for separator-free inputs (the source only
applies it to basenames): the suffix from the last dot, except that a sole
leading dot (hidden files), a dot-free name, and the special name `..`
yield the empty extension. -/
def posixExtname (b : Str) : Str :=
  if (b.reverse.takeWhile (· ≠ '.')).length = b.length then []
  else if b.length - (b.reverse.takeWhile (· ≠ '.')).length - 1 = 0 then []
  else if b = ['.', '.'] then []
  else b.drop (b.length - (b.reverse.takeWhile (· ≠ '.')).length - 1)

/-- Split on a separator character (JavaScript `p.split(sep)` for a
one-character separator, as Node's segment scan of `normalizeString`). -/
def splitSep (sep : Char) : Str → List Str
  | [] => [[]]
  | ch :: t =>
    if ch = sep then [] :: splitSep sep t
    else (splitSep sep t).modifyHead (ch :: ·)

/-- Node `path.posix.dirname`. -/
def posixDirname (p : Str) : Str :=
  if p = [] then ['.']
  else if ((p.reverse.dropWhile (· = '/')).dropWhile (· ≠ '/')) = [] then
    (if p.head? = some '/' then ['/'] else ['.'])
  else if ((p.reverse.dropWhile (· = '/')).dropWhile (· ≠ '/')).length = 1 then ['/']
  else if p.head? = some '/' ∧
      ((p.reverse.dropWhile (· = '/')).dropWhile (· ≠ '/')).length = 2 then ['/', '/']
  else p.take (((p.reverse.dropWhile (· = '/')).dropWhile (· ≠ '/')).length - 1)

/-- Segment processing of Node `normalizeString`: empty and `.` segments
vanish, `..` pops the previous real segment (or is kept, when ascending
above the root is allowed). -/
def normSegs (allowAboveRoot : Bool) : List Str → List Str → List Str
  | acc, [] => acc
  | acc, s :: rest =>
    if s = [] ∨ s = ['.'] then normSegs allowAboveRoot acc rest
    else if s = ['.', '.'] then
      if acc ≠ [] ∧ acc.getLast? ≠ some ['.', '.'] then
        normSegs allowAboveRoot acc.dropLast rest
      else if allowAboveRoot then normSegs allowAboveRoot (acc ++ [s]) rest
      else normSegs allowAboveRoot acc rest
    else normSegs allowAboveRoot (acc ++ [s]) rest

/-- Node `path.posix.normalize`. -/
def posixNormalize (p : Str) : Str :=
  if p = [] then ['.']
  else
    let isAbs := decide (p.head? = some '/')
    let trailing := decide (p.getLast? = some '/')
    let core := jsJoin ['/'] (normSegs (!isAbs) [] (splitSep '/' p))
    if core = [] then
      if isAbs then ['/'] else if trailing then ['.', '/'] else ['.']
    else
      let core2 := if trailing then core ++ ['/'] else core
      if isAbs then '/' :: core2 else core2

/-- Node `path.posix.join` on two arguments: concatenate the nonempty
arguments with a separator and normalize. -/
def posixJoin2 (a b : Str) : Str :=
  let joined := if a = [] then b else if b = [] then a else a ++ '/' :: b
  if joined = [] then ['.'] else posixNormalize joined

/-! ## Path transforms of the redact feature (src/src/vault.ts 395-429) -/

/-- Source `getRedactedFilePath`: insert `.redacted` between the stem and
the extension of the basename and reattach the directory. -/
def getRedactedFilePath (filePath : Str) : Str :=
  let dir := posixDirname filePath
  let basename := posixBasename filePath
  let ext := posixExtname basename
  let nameWithoutExt := posixBasenameExt basename ext
  posixJoin2 dir (nameWithoutExt ++ String.toList ".redacted" ++ ext)

/-- Source `isRedactedFile`: the basename contains `.redacted.`. -/
def isRedactedFile (filePath : Str) : Bool :=
  jsIncludes (posixBasename filePath) (String.toList ".redacted.")

/-- JavaScript `nameWithoutExt.replace(/\.redacted$/, '')`: strip one
final `.redacted` suffix when present. -/
def stripRedactedSuffix (s : Str) : Str :=
  if (String.toList ".redacted").isSuffixOf s then
    s.take (s.length - (String.toList ".redacted").length)
  else s

/-- Source `getOriginalFilePath`: remove a trailing `.redacted` from the
extension-stripped basename and reattach extension and directory. -/
def getOriginalFilePath (redactedFilePath : Str) : Str :=
  let dir := posixDirname redactedFilePath
  let basename := posixBasename redactedFilePath
  let ext := posixExtname basename
  let nameWithoutExt := posixBasenameExt basename ext
  posixJoin2 dir (stripRedactedSuffix nameWithoutExt ++ ext)

/-! ## Pattern matcher (src/src/vault.ts 271-288)

The source lowers each glob to a regular expression (`.` escaped, `*` to
`.*`, `?` to `.`, anchored): for patterns whose literal characters carry no
other regular-expression meaning this is exactly glob matching, embedded
here directly. -/

/-- Fuelled glob matcher: `*` matches any run, `?` one character, other
characters literally; anchored at both ends. -/
def globMatchF : Nat → Str → Str → Bool
  | 0, _, _ => false
  | _ + 1, [], name => name.isEmpty
  | n + 1, '*' :: p, name =>
    globMatchF n p name ||
      (match name with
       | [] => false
       | _ :: t => globMatchF n ('*' :: p) t)
  | n + 1, '?' :: p, name =>
    (match name with
     | [] => false
     | _ :: t => globMatchF n p t)
  | n + 1, ch :: p, name =>
    (match name with
     | [] => false
     | c :: t => ch = c && globMatchF n p t)

/-- JavaScript `String.prototype.trim`. -/
def jsTrim (s : Str) : Str :=
  ((s.dropWhile Char.isWhitespace).reverse.dropWhile Char.isWhitespace).reverse

/-- Fuelled worker for `matchesPattern`: a parenthesized pipe-separated
alternation of globs, or a single glob against the basename. -/
def matchesPatternF : Nat → Str → Str → Bool
  | 0, _, _ => false
  | n + 1, filePath, pattern =>
    if pattern.head? = some '(' ∧ pattern.getLast? = some ')' then
      ((pattern.drop 1).dropLast.splitOn '|').any
        (fun q => matchesPatternF n filePath (jsTrim q))
    else
      globMatchF (pattern.length + (posixBasename filePath).length + 1) pattern
        (posixBasename filePath)

/-- Source `matchesPattern`. -/
def matchesPattern (filePath pattern : Str) : Bool :=
  matchesPatternF (pattern.length + 1) filePath pattern

/-! ## Indexing (src/src/vault.ts 545-597) -/

/-- The `processFile` closure of `indexFiles`, over a file given as its
path plus its readable content (`none` when `fs.readFileSync` throws): the
pattern filter, then the per-record substring scan, emitting an entry only
when at least one record value occurs. -/
def scanFile (secrets : SecretsMap) (pattern : Option Str) (filePath : Str)
    (content : Option Str) : Option IndexedFile :=
  if (match pattern with
      | some pat => matchesPattern filePath pat
      | none => true) then
    match content with
    | none => none
    | some c =>
      let ids := (secrets.filter (fun e => jsIncludes c e.2.secretValue)).map (·.1)
      if ids = [] then none else some ⟨filePath, ids⟩
  else none

/-- Source `indexFiles` over the list of candidate files the caller makes
it visit (an explicit `specificFiles` list, or every file the walker
reaches), with the filesystem read modelled as a map from path to optional
content. The emitted entry records `filePath` verbatim. -/
def indexFiles (files : List Str) (fileSys : Str → Option Str)
    (secrets : SecretsMap) (pattern : Option Str) : List IndexedFile :=
  files.filterMap (fun fp => scanFile secrets pattern fp (fileSys fp))

/-- Keep-first deduplication:
`filter((file, index, self) => self.indexOf(file) === index)`. -/
def dedupKeepFirst : List Str → List Str → List Str
  | _, [] => []
  | seen, x :: rest =>
    if x ∈ seen then dedupKeepFirst seen rest
    else x :: dedupKeepFirst (seen ++ [x]) rest

/-- Source `getGitModifiedFiles` (src/src/vault.ts 240-263): each
nonblank output line of `git diff --name-only` is trimmed and joined onto
the git root with `path.join`, then deduplicated and filtered to existing
regular files. -/
def getGitModifiedFiles (gitRoot : Str) (gitOutputLines : List Str)
    (isFile : Str → Bool) : List Str :=
  let files := (gitOutputLines.filter (fun f => jsTrim f ≠ [])).map
    (fun f => posixJoin2 gitRoot (jsTrim f))
  (dedupKeepFirst [] files).filter isFile

/-! ## The index command merge (src/src/replace.ts 373-395) -/

/-- JavaScript `Map.prototype.set` on an insertion-ordered map keyed by
`path`: update in place, or append. -/
def mapSet : List IndexedFile → IndexedFile → List IndexedFile
  | [], f => [f]
  | g :: rest, f => if g.path = f.path then f :: rest else g :: mapSet rest f

/-- `new Map(store.index.map(f => [f.path, f]))`. -/
def buildMap (l : List IndexedFile) : List IndexedFile :=
  l.foldl mapSet []

/-- The incremental merge of the index command: overlay every freshly
scanned entry onto the map of existing entries keyed by path, then keep
exactly the entries for which `fs.existsSync(path.join(gitRoot, path))`
holds. -/
def mergeIncrementalIndex (storeIndex newFiles : List IndexedFile)
    (gitRoot : Str) (fsExists : Str → Bool) : List IndexedFile :=
  let m := newFiles.foldl mapSet (buildMap storeIndex)
  m.filter (fun f => fsExists (posixJoin2 gitRoot f.path))

/-- The stored index produced by the index command: incremental merge in
default mode when a nonempty previous index exists, full replacement
otherwise. -/
def indexCommandStoreIndex (all : Bool) (store : SecretsStore)
    (newFiles : List IndexedFile) (gitRoot : Str) (fsExists : Str → Bool) :
    List IndexedFile :=
  match store.index with
  | some idx =>
    if ¬ all ∧ idx ≠ [] then mergeIncrementalIndex idx newFiles gitRoot fsExists
    else newFiles
  | none => newFiles

/-- The default (incremental) run of the index command: discover the
changed files through `getGitModifiedFiles`, scan them with `indexFiles`,
and merge with the stored index. -/
def incrementalIndexRun (gitRoot : Str) (gitLines : List Str)
    (fileSys : Str → Option Str) (fsExists isFile : Str → Bool)
    (store : SecretsStore) (pattern : Option Str) : List IndexedFile :=
  let specificFiles := getGitModifiedFiles gitRoot gitLines isFile
  let newFiles := indexFiles specificFiles fileSys store.secrets pattern
  indexCommandStoreIndex false store newFiles gitRoot fsExists

/-! ## The delete command index pruning (src/src/replace.ts 703-709) -/

/-- Source index update on delete: drop the id from every entry, then drop
entries left with no ids. -/
def deleteFromIndex (idx : List IndexedFile) (id : Str) : List IndexedFile :=
  (idx.map (fun f => ⟨f.path, f.secretIds.filter (· ≠ id)⟩)).filter
    (fun f => f.secretIds ≠ [])

/-- The delete command on the store: resolve the identifier, remove the
record, prune the index. -/
def deleteSecret (store : SecretsStore) (identifier : Str) : Option SecretsStore :=
  match findSecretByIdentifier store.secrets identifier with
  | none => none
  | some (id, _) =>
    some ⟨store.secrets.filter (fun e => e.1 ≠ id),
          store.index.map (fun idx => deleteFromIndex idx id)⟩

/-! ## The add command (src/src/replace.ts 529-576) -/

inductive AddError where
  | duplicateValue (placeholder : Str)
  | invalidName
  | duplicateName
deriving DecidableEq, Repr

/-- The character class of `/^[a-zA-Z0-9_-]+$/`. -/
def isValidNameChar (ch : Char) : Bool :=
  (('a' ≤ ch ∧ ch ≤ 'z') ∨ ('A' ≤ ch ∧ ch ≤ 'Z') ∨ ('0' ≤ ch ∧ ch ≤ '9') ∨
    ch = '_' ∨ ch = '-')

def isValidName (n : Str) : Bool :=
  n ≠ [] && n.all isValidNameChar

/-- The add command's mutation of the store: duplicate-value check first
(reporting the existing record's placeholder), then — only for a truthy
custom name — the character-class and duplicate-name checks, then the
insertion of the fresh record. On an error the command exits before any
mutation or write. -/
def addSecret (store : SecretsStore) (uuid secret : Str)
    (customName : Option Str) (desc : Option Str) (created : Str) :
    Except AddError SecretsStore :=
  match store.secrets.find? (fun e => e.2.secretValue = secret) with
  | some e => .error (.duplicateValue (generatePlaceholder e.1 e.2))
  | none =>
    let nameOpt := match customName with
      | some n => if n = [] then none else some n
      | none => none
    match nameOpt with
    | some n =>
      if ¬ isValidName n then .error .invalidName
      else if nameExists store.secrets n then .error .duplicateName
      else .ok ⟨store.secrets ++
        [(uuid, .record secret (some (desc.getD [])) (some created) (some n))],
        store.index⟩
    | none => .ok ⟨store.secrets ++
        [(uuid, .record secret (some (desc.getD [])) (some created) none)],
        store.index⟩

/-- The add command's effect on the persisted store: the vault file is
rewritten only on success; on a validation error the process exits first
and the persisted catalogue stays as it was. -/
def runAdd (store : SecretsStore) (uuid secret : Str)
    (customName : Option Str) (desc : Option Str) (created : Str) :
    SecretsStore × Option AddError :=
  match addSecret store uuid secret customName desc created with
  | .ok s => (s, none)
  | .error e => (store, some e)

/-! ## Specification-level substitution

These definitions follow the specification's words, not the source: the
substring test is list-infix, and replacing every occurrence is leftmost
non-overlapping rewriting. -/

/-- Fuelled leftmost non-overlapping rewriting of every occurrence of
`pat` by `rep` (the specification's notion of exact literal substring
replacement). -/
def replaceOccF : Nat → Str → Str → Str → Str
  | 0, _, _, c => c
  | n + 1, pat, rep, c =>
    if pat ≠ [] ∧ pat.isPrefixOf c then
      rep ++ replaceOccF n pat rep (c.drop pat.length)
    else
      match c with
      | [] => []
      | ch :: t => ch :: replaceOccF n pat rep t

/-- Leftmost non-overlapping replacement of every occurrence. -/
def replaceOcc (pat rep c : Str) : Str :=
  replaceOccF (c.length + 1) pat rep c

/-- The specification's per-file substitution core: iterate the
source/target pairs in catalogue order; whenever the source occurs as a
literal substring, replace every occurrence of it by the target; report
changed iff at least one replacement occurred. -/
def specSubstitute (pairs : List (Str × Str)) (c : Str) : Str × Bool :=
  pairs.foldl
    (fun acc sv => if sv.1 <:+: acc.1 then (replaceOcc sv.1 sv.2 acc.1, true) else acc)
    (c, false)

/-- A path segment that Node `normalizeString` keeps as it is. -/
def realSeg (s : Str) : Prop :=
  s ≠ [] ∧ s ≠ ['.'] ∧ s ≠ ['.', '.']

/-- A basename-like string: nonempty, separator-free, and not one of the
special dot segments. -/
def cleanSeg (s : Str) : Prop :=
  s ≠ [] ∧ '/' ∉ s ∧ s ≠ ['.'] ∧ s ≠ ['.', '.']

/-- Shape of a `normalizeString` result: leading `..` segments (only in
relative mode) followed by kept real segments. -/
def canonSegs (a : Bool) (S : List Str) : Prop :=
  ∃ k R, S = List.replicate k ['.', '.'] ++ R ∧ (∀ r ∈ R, realSeg r) ∧
    (a = false → k = 0)

/-! ## Token-structure model of substituted content

A decomposition of file content into literal raw pieces and placeholder
tokens of catalogue entries, used to track how the substitution engine
rewrites content: `interTok` interleaves raw pieces with the tokens of
their following entries (plus one trailing raw piece); `Seg` lists are
the per-segment view used for the decryption direction. -/

/-- A character allowed in a placeholder identifier without making the
token delimiters ambiguous. -/
abbrev identChar (ch : Char) : Prop := ch ≠ '<' ∧ ch ≠ '!' ∧ ch ≠ '>'

/-- One segment of decomposed content: a literal piece or the placeholder
token of a catalogue entry. -/
inductive Seg where
  | raw (s : Str)
  | tok (e : Str × SecretData)

/-- The content a segment list denotes. -/
def flatS : List Seg → Str
  | [] => []
  | Seg.raw s :: rest => s ++ flatS rest
  | Seg.tok e :: rest => generatePlaceholder e.1 e.2 ++ flatS rest

/-- The content with every token put back to its entry's secret value. -/
def undoS : List Seg → Str
  | [] => []
  | Seg.raw s :: rest => s ++ undoS rest
  | Seg.tok e :: rest => e.2.secretValue ++ undoS rest

/-- The segment-level effect of one decryption iteration: every token
whose placeholder identifier matches the processed entry's becomes the
literal secret value of that entry. -/
def decS (e' : Str × SecretData) : List Seg → List Seg
  | [] => []
  | Seg.raw s :: rest => Seg.raw s :: decS e' rest
  | Seg.tok e :: rest =>
    (if getPlaceholderId e.1 e.2 = getPlaceholderId e'.1 e'.2 then
      Seg.raw e'.2.secretValue else Seg.tok e) :: decS e' rest

/-- Content of an interleaved decomposition: raw piece, token of the
paired entry, …, trailing raw piece. -/
def interTok : List (Str × (Str × SecretData)) → Str → Str
  | [], r => r
  | (s, e) :: rest, r => s ++ generatePlaceholder e.1 e.2 ++ interTok rest r

/-- The interleaved decomposition with every token put back to its
entry's secret value. -/
def undoD : List (Str × (Str × SecretData)) → Str → Str
  | [], r => r
  | (s, e) :: rest, r => s ++ e.2.secretValue ++ undoD rest r

/-- Re-decompose the split parts of one raw piece: each part except the
last is followed by a token of the freshly processed entry, the last part
becomes the new trailing raw piece. -/
def pieceTok (e : Str × SecretData) :
    List Str → List (Str × (Str × SecretData)) × Str
  | [] => ([], [])
  | [u] => ([], u)
  | u :: u2 :: rest =>
    ((u, e) :: (pieceTok e (u2 :: rest)).1, (pieceTok e (u2 :: rest)).2)

/-- The decomposition-level effect of one encryption iteration: every raw
piece is split at the occurrences of the processed value `v` and the
token of the processed entry `e'` is inserted at each cut. -/
def encD (v : Str) (e' : Str × SecretData) :
    List (Str × (Str × SecretData)) → Str →
    List (Str × (Str × SecretData)) × Str
  | [], r => pieceTok e' (jsSplitNE v r)
  | (s, e) :: rest, r =>
    ((pieceTok e' (jsSplitNE v s)).1 ++
      ((pieceTok e' (jsSplitNE v s)).2, e) :: (encD v e' rest r).1,
      (encD v e' rest r).2)

/-- A segment-list presentation of an interleaved decomposition. -/
def segsOf : List (Str × (Str × SecretData)) → Str → List Seg
  | [], r => [Seg.raw r]
  | (s, e) :: rest, r => Seg.raw s :: Seg.tok e :: segsOf rest r

/-- Insert `p` between every pair of adjacent characters (the result of
`content.split('').join(p)`). -/
def insertBetween (p : Str) : Str → Str
  | [] => []
  | [ch] => [ch]
  | ch :: ch2 :: t => ch :: (p ++ insertBetween p (ch2 :: t))

/-! ## Semantics of the JavaScript string primitives -/

theorem jsIncludes_iff {c pat : Str} : jsIncludes c pat = true ↔ pat <:+: c := by
  induction c with
  | nil =>
    simp [jsIncludes, List.isPrefixOf_iff_prefix]
  | cons ch t ih =>
    simp only [jsIncludes, Bool.or_eq_true, List.isPrefixOf_iff_prefix, ih,
      List.infix_cons_iff]

theorem jsSplitF_fuel : ∀ (n m : Nat) (pat c : Str), c.length < n → c.length < m →
    jsSplitF n pat c = jsSplitF m pat c := by
  intro n
  induction n with
  | zero => exact fun m pat c h _ => absurd h (Nat.not_lt_zero _)
  | succ n ih =>
    intro m pat c hn hm
    cases m with
    | zero => exact absurd hm (Nat.not_lt_zero _)
    | succ m =>
      simp only [jsSplitF]
      split
      · rename_i hcond
        have hpre := List.isPrefixOf_iff_prefix.mp hcond.2
        have hlen := List.IsPrefix.length_le hpre
        have hp1 : 1 ≤ pat.length := List.length_pos.mpr hcond.1
        congr 1
        apply ih
        · simp only [List.length_drop]; omega
        · simp only [List.length_drop]; omega
      · cases c with
        | nil => rfl
        | cons ch t =>
          simp only [List.length_cons] at hn hm
          exact congrArg (List.modifyHead (ch :: ·)) (ih m pat t (by omega) (by omega))

theorem jsSplitNE_eq (pat c : Str) :
    jsSplitNE pat c =
      if pat ≠ [] ∧ pat.isPrefixOf c then [] :: jsSplitNE pat (c.drop pat.length)
      else match c with
           | [] => [[]]
           | ch :: t => (jsSplitNE pat t).modifyHead (ch :: ·) := by
  conv_lhs => unfold jsSplitNE
  simp only [jsSplitF]
  split
  · rename_i hcond
    have hpre := List.isPrefixOf_iff_prefix.mp hcond.2
    have hlen := List.IsPrefix.length_le hpre
    have hp1 : 1 ≤ pat.length := List.length_pos.mpr hcond.1
    congr 1
    apply jsSplitF_fuel
    · simp only [List.length_drop]; omega
    · exact Nat.lt_succ_self _
  · cases c with
    | nil => rfl
    | cons ch t => rfl

theorem jsSplitNE_pos {pat c : Str} (h1 : pat ≠ []) (h2 : pat.isPrefixOf c = true) :
    jsSplitNE pat c = [] :: jsSplitNE pat (c.drop pat.length) := by
  rw [jsSplitNE_eq, if_pos ⟨h1, h2⟩]

theorem jsSplitNE_nil (pat : Str) : jsSplitNE pat [] = [[]] := by
  rw [jsSplitNE_eq, if_neg]
  rintro ⟨h1, h2⟩
  exact h1 (by simpa [List.isPrefixOf_iff_prefix] using h2)

theorem jsSplitNE_cons_neg {pat : Str} {ch : Char} {t : Str}
    (h : ¬(pat ≠ [] ∧ pat.isPrefixOf (ch :: t) = true)) :
    jsSplitNE pat (ch :: t) = (jsSplitNE pat t).modifyHead (ch :: ·) := by
  rw [jsSplitNE_eq, if_neg h]

theorem replaceOccF_fuel : ∀ (n m : Nat) (pat rep c : Str),
    c.length < n → c.length < m → replaceOccF n pat rep c = replaceOccF m pat rep c := by
  intro n
  induction n with
  | zero => exact fun m pat rep c h _ => absurd h (Nat.not_lt_zero _)
  | succ n ih =>
    intro m pat rep c hn hm
    cases m with
    | zero => exact absurd hm (Nat.not_lt_zero _)
    | succ m =>
      simp only [replaceOccF]
      split
      · rename_i hcond
        have hpre := List.isPrefixOf_iff_prefix.mp hcond.2
        have hlen := List.IsPrefix.length_le hpre
        have hp1 : 1 ≤ pat.length := List.length_pos.mpr hcond.1
        congr 1
        apply ih
        · simp only [List.length_drop]; omega
        · simp only [List.length_drop]; omega
      · cases c with
        | nil => rfl
        | cons ch t =>
          simp only [List.length_cons] at hn hm
          exact congrArg (ch :: ·) (ih m pat rep t (by omega) (by omega))

theorem replaceOcc_eq (pat rep c : Str) :
    replaceOcc pat rep c =
      if pat ≠ [] ∧ pat.isPrefixOf c then
        rep ++ replaceOcc pat rep (c.drop pat.length)
      else match c with
           | [] => []
           | ch :: t => ch :: replaceOcc pat rep t := by
  conv_lhs => unfold replaceOcc
  simp only [replaceOccF]
  split
  · rename_i hcond
    have hpre := List.isPrefixOf_iff_prefix.mp hcond.2
    have hlen := List.IsPrefix.length_le hpre
    have hp1 : 1 ≤ pat.length := List.length_pos.mpr hcond.1
    congr 1
    apply replaceOccF_fuel
    · simp only [List.length_drop]; omega
    · exact Nat.lt_succ_self _
  · cases c with
    | nil => rfl
    | cons ch t => rfl

theorem replaceOcc_pos {pat c : Str} (rep : Str) (h1 : pat ≠ [])
    (h2 : pat.isPrefixOf c = true) :
    replaceOcc pat rep c = rep ++ replaceOcc pat rep (c.drop pat.length) := by
  rw [replaceOcc_eq, if_pos ⟨h1, h2⟩]

theorem replaceOcc_nil (pat rep : Str) : replaceOcc pat rep [] = [] := by
  rw [replaceOcc_eq, if_neg]
  rintro ⟨h1, h2⟩
  exact h1 (by simpa [List.isPrefixOf_iff_prefix] using h2)

theorem replaceOcc_cons_neg {pat : Str} (rep : Str) {ch : Char} {t : Str}
    (h : ¬(pat ≠ [] ∧ pat.isPrefixOf (ch :: t) = true)) :
    replaceOcc pat rep (ch :: t) = ch :: replaceOcc pat rep t := by
  rw [replaceOcc_eq, if_neg h]

theorem modifyHead_ne_nil {l : List Str} (f : Str → Str) (h : l ≠ []) :
    l.modifyHead f ≠ [] := by
  cases l with
  | nil => exact absurd rfl h
  | cons x xs => simp [List.modifyHead]

theorem jsSplitNE_ne_nil (pat : Str) : ∀ c, jsSplitNE pat c ≠ [] := by
  have H : ∀ (n : Nat) (c : Str), c.length ≤ n → jsSplitNE pat c ≠ [] := by
    intro n
    induction n with
    | zero =>
      intro c hc
      have : c = [] := List.length_eq_zero.mp (Nat.le_zero.mp hc)
      subst this
      rw [jsSplitNE_nil]
      simp
    | succ n ih =>
      intro c hc
      cases c with
      | nil => rw [jsSplitNE_nil]; simp
      | cons ch t =>
        by_cases hcond : pat ≠ [] ∧ pat.isPrefixOf (ch :: t) = true
        · rw [jsSplitNE_pos hcond.1 hcond.2]; simp
        · rw [jsSplitNE_cons_neg hcond]
          apply modifyHead_ne_nil
          apply ih
          simp only [List.length_cons] at hc
          omega
  exact fun c => H c.length c le_rfl

theorem jsJoin_cons_of_ne_nil {sep x : Str} {xs : List Str} (h : xs ≠ []) :
    jsJoin sep (x :: xs) = x ++ sep ++ jsJoin sep xs := by
  cases xs with
  | nil => exact absurd rfl h
  | cons y r => rfl

theorem jsJoin_modifyHead_cons {sep : Str} {ch : Char} {xs : List Str} (h : xs ≠ []) :
    jsJoin sep (xs.modifyHead (ch :: ·)) = ch :: jsJoin sep xs := by
  cases xs with
  | nil => exact absurd rfl h
  | cons y r =>
    cases r with
    | nil => rfl
    | cons z r2 => simp [List.modifyHead, jsJoin, List.cons_append]

/-- `content.split(pat).join(rep)` is leftmost non-overlapping
replace-all, for a nonempty pattern. -/
theorem jsJoin_jsSplitNE (pat rep : Str) (h : pat ≠ []) :
    ∀ c, jsJoin rep (jsSplitNE pat c) = replaceOcc pat rep c := by
  have H : ∀ (n : Nat) (c : Str), c.length ≤ n →
      jsJoin rep (jsSplitNE pat c) = replaceOcc pat rep c := by
    intro n
    induction n with
    | zero =>
      intro c hc
      have : c = [] := List.length_eq_zero.mp (Nat.le_zero.mp hc)
      subst this
      rw [jsSplitNE_nil, replaceOcc_nil]
      rfl
    | succ n ih =>
      intro c hc
      cases c with
      | nil => rw [jsSplitNE_nil, replaceOcc_nil]; rfl
      | cons ch t =>
        by_cases hcond : pat ≠ [] ∧ pat.isPrefixOf (ch :: t) = true
        · have hpre := List.isPrefixOf_iff_prefix.mp hcond.2
          have hlen := List.IsPrefix.length_le hpre
          have hp1 : 1 ≤ pat.length := List.length_pos.mpr h
          rw [jsSplitNE_pos hcond.1 hcond.2, replaceOcc_pos rep hcond.1 hcond.2,
            jsJoin_cons_of_ne_nil (jsSplitNE_ne_nil pat _)]
          simp only [List.nil_append]
          congr 1
          apply ih
          simp only [List.length_drop, List.length_cons] at hc ⊢
          omega
        · rw [jsSplitNE_cons_neg hcond, replaceOcc_cons_neg rep hcond,
            jsJoin_modifyHead_cons (jsSplitNE_ne_nil pat t)]
          congr 1
          apply ih
          simp only [List.length_cons] at hc
          omega
  exact fun c => H c.length c le_rfl

/-- Rejoining a split with the separator itself reproduces the string. -/
theorem jsJoin_jsSplit_self (pat : Str) : ∀ c, jsJoin pat (jsSplit c pat) = c := by
  by_cases hp : pat = []
  · subst hp
    intro c
    induction c with
    | nil => rfl
    | cons ch t ih =>
      cases t with
      | nil => rfl
      | cons y r =>
        have hne : jsSplit (y :: r) ([] : Str) ≠ [] := by simp [jsSplit]
        have hs : jsSplit (ch :: y :: r) ([] : Str) = [ch] :: jsSplit (y :: r) [] := by
          simp [jsSplit]
        rw [hs, jsJoin_cons_of_ne_nil hne, ih]
        simp
  · have H : ∀ (n : Nat) (c : Str), c.length ≤ n → jsJoin pat (jsSplit c pat) = c := by
      intro n
      induction n with
      | zero =>
        intro c hc
        have : c = [] := List.length_eq_zero.mp (Nat.le_zero.mp hc)
        subst this
        simp [jsSplit, hp, jsSplitNE_nil, jsJoin]
      | succ n ih =>
        intro c hc
        cases c with
        | nil => simp [jsSplit, hp, jsSplitNE_nil, jsJoin]
        | cons ch t =>
          simp only [jsSplit, if_neg hp]
          by_cases hcond : pat ≠ [] ∧ pat.isPrefixOf (ch :: t) = true
          · have hpre := List.isPrefixOf_iff_prefix.mp hcond.2
            have hlen := List.IsPrefix.length_le hpre
            have hp1 : 1 ≤ pat.length := List.length_pos.mpr hp
            rw [jsSplitNE_pos hcond.1 hcond.2,
              jsJoin_cons_of_ne_nil (jsSplitNE_ne_nil pat _)]
            simp only [List.nil_append]
            have ihx : jsJoin pat (jsSplit ((ch :: t).drop pat.length) pat) =
                (ch :: t).drop pat.length := by
              apply ih
              simp only [List.length_drop, List.length_cons] at hc ⊢
              omega
            simp only [jsSplit, if_neg hp] at ihx
            rw [ihx]
            exact List.prefix_iff_eq_append.mp hpre
          · rw [jsSplitNE_cons_neg hcond,
              jsJoin_modifyHead_cons (jsSplitNE_ne_nil pat t)]
            have ihx : jsJoin pat (jsSplit t pat) = t := by
              apply ih
              simp only [List.length_cons] at hc
              omega
            simp only [jsSplit, if_neg hp] at ihx
            rw [ihx]
    exact fun c => H c.length c le_rfl

/-! ## Replacement and token-shape lemmas -/

theorem jsIncludes_nil_pat (c : Str) : jsIncludes c [] = true :=
  jsIncludes_iff.mpr List.nil_infix

theorem replaceOcc_self (v : Str) : ∀ s, replaceOcc v v s = s := by
  have H : ∀ (n : Nat) (s : Str), s.length ≤ n → replaceOcc v v s = s := by
    intro n
    induction n with
    | zero =>
      intro s hs
      have : s = [] := List.length_eq_zero.mp (Nat.le_zero.mp hs)
      subst this
      exact replaceOcc_nil v v
    | succ n ih =>
      intro s hs
      rw [replaceOcc_eq]
      split
      · rename_i hcond
        obtain ⟨s2, hs2⟩ := List.isPrefixOf_iff_prefix.mp hcond.2
        have hv1 : 1 ≤ v.length := List.length_pos.mpr hcond.1
        have hdrop : s.drop v.length = s2 := by
          rw [← hs2]
          exact List.drop_left v s2
        have hlen : s2.length ≤ n := by
          have := congrArg List.length hs2
          simp only [List.length_append] at this
          omega
        rw [hdrop, ih s2 hlen]
        exact hs2
      · cases s with
        | nil => rfl
        | cons ch s' =>
          exact congrArg (ch :: ·) (ih s' (by simp only [List.length_cons] at hs; omega))
  exact fun s => H s.length s le_rfl

theorem replaceOcc_no_occ {pat c : Str} (h : ¬ pat <:+: c) (rep : Str) :
    replaceOcc pat rep c = c := by
  induction c with
  | nil => exact replaceOcc_nil pat rep
  | cons ch t ih =>
    have hc : ¬ (pat ≠ [] ∧ pat.isPrefixOf (ch :: t) = true) := by
      rintro ⟨_, h2⟩
      exact h (List.IsPrefix.isInfix (List.isPrefixOf_iff_prefix.mp h2))
    rw [replaceOcc_eq, if_neg hc]
    exact congrArg (ch :: ·) (ih (fun hh => h (List.infix_cons_iff.mpr (Or.inr hh))))

theorem replaceOcc_append_nohead {pat : Str} {p0 : Char} (rep : Str)
    (hpat : pat.head? = some p0) :
    ∀ (s X : Str), p0 ∉ s →
      replaceOcc pat rep (s ++ X) = s ++ replaceOcc pat rep X := by
  intro s
  induction s with
  | nil => intro X _; rw [List.nil_append, List.nil_append]
  | cons ch s' ih =>
    intro X hs
    have hc : ¬ (pat ≠ [] ∧ pat.isPrefixOf (ch :: (s' ++ X)) = true) := by
      rintro ⟨_, h2⟩
      have hpre := List.isPrefixOf_iff_prefix.mp h2
      cases pat with
      | nil => simp at hpat
      | cons q qt =>
        have hq : q = p0 := by simpa using hpat
        rw [List.cons_prefix_cons] at hpre
        exact hs (List.mem_cons.mpr (Or.inl (hpre.1.symm.trans hq).symm))
    rw [List.cons_append, replaceOcc_eq, if_neg hc]
    exact congrArg (ch :: ·) (ih X (fun hm => hs (List.mem_cons_of_mem ch hm)))

theorem genP_cons (id : Str) (d : SecretData) :
    generatePlaceholder id d =
      '<' :: (String.toList "!secret_" ++ getPlaceholderId id d ++
        String.toList "!>") := rfl

theorem genP_head (id : Str) (d : SecretData) :
    (generatePlaceholder id d).head? = some '<' := by
  rw [genP_cons]
  rfl

theorem genP_concat (id : Str) (d : SecretData) :
    generatePlaceholder id d =
      (String.toList "<!secret_" ++ getPlaceholderId id d ++ ['!']) ++ ['>'] := by
  show (String.toList "<!secret_" ++ getPlaceholderId id d) ++ String.toList "!>" = _
  rw [List.append_assoc (String.toList "<!secret_" ++ getPlaceholderId id d)]
  rfl

theorem genP_suffix_gt {id : Str} {d : SecretData} :
    ∀ u, u <:+ generatePlaceholder id d → u ≠ [] → '>' ∈ u := by
  intro u hsuf hne
  obtain ⟨a, ha⟩ := hsuf
  obtain ⟨ys, y, hy⟩ := u.eq_nil_or_concat.resolve_left hne
  rw [List.concat_eq_append] at hy
  subst hy
  have h1 : ((a ++ ys) ++ [y]).getLast? = some '>' := by
    rw [List.append_assoc, ha, genP_concat, List.getLast?_concat]
  rw [List.getLast?_concat] at h1
  have hyv : y = '>' := by
    injection h1
  exact List.mem_append_right ys (by rw [hyv]; exact List.mem_singleton.mpr rfl)

theorem genP_eq_of_pid {a b : Str × SecretData}
    (h : getPlaceholderId a.1 a.2 = getPlaceholderId b.1 b.2) :
    generatePlaceholder a.1 a.2 = generatePlaceholder b.1 b.2 := by
  unfold generatePlaceholder
  rw [h]

theorem genP_interior_no_lt {id : Str} {d : SecretData}
    (hid : ∀ ch ∈ getPlaceholderId id d, identChar ch) :
    '<' ∉ String.toList "!secret_" ++ getPlaceholderId id d ++
      String.toList "!>" := by
  intro hm
  rcases List.mem_append.mp hm with hm1 | hm1
  · rcases List.mem_append.mp hm1 with hm2 | hm2
    · exact (by decide : ('<' : Char) ∉ String.toList "!secret_") hm2
    · exact (hid '<' hm2).1 rfl
  · exact (by decide : ('<' : Char) ∉ String.toList "!>") hm1

theorem token_id_prefix : ∀ (id1 id2 u w : Str), '!' ∉ id1 → '!' ∉ id2 →
    (id1 ++ '!' :: u) <+: (id2 ++ '!' :: w) → id1 = id2 := by
  intro id1
  induction id1 with
  | nil =>
    intro id2 u w _ h2 hpre
    cases id2 with
    | nil => rfl
    | cons b t =>
      rw [List.nil_append, List.cons_append, List.cons_prefix_cons] at hpre
      exact absurd (by rw [hpre.1]; exact List.mem_cons_self b t) h2
  | cons a t1 ih =>
    intro id2 u w h1 h2 hpre
    cases id2 with
    | nil =>
      rw [List.cons_append, List.nil_append, List.cons_prefix_cons] at hpre
      exact absurd (List.mem_cons.mpr (Or.inl hpre.1.symm)) h1
    | cons b t2 =>
      rw [List.cons_append, List.cons_append, List.cons_prefix_cons] at hpre
      have ht := ih t2 u w (fun hm => h1 (List.mem_cons_of_mem a hm))
        (fun hm => h2 (List.mem_cons_of_mem b hm)) hpre.2
      rw [hpre.1, ht]

theorem genP_prefix_eq {a b : Str × SecretData} (X : Str)
    (ha : '!' ∉ getPlaceholderId a.1 a.2) (hb : '!' ∉ getPlaceholderId b.1 b.2)
    (h : generatePlaceholder a.1 a.2 <+: generatePlaceholder b.1 b.2 ++ X) :
    getPlaceholderId a.1 a.2 = getPlaceholderId b.1 b.2 := by
  have hlit : String.toList "!>" = '!' :: ['>'] := rfl
  have hA : generatePlaceholder a.1 a.2 =
      String.toList "<!secret_" ++ (getPlaceholderId a.1 a.2 ++ '!' :: ['>']) := by
    unfold generatePlaceholder
    rw [hlit, List.append_assoc]
  have hB : generatePlaceholder b.1 b.2 ++ X =
      String.toList "<!secret_" ++
        (getPlaceholderId b.1 b.2 ++ '!' :: ('>' :: X)) := by
    unfold generatePlaceholder
    rw [hlit]
    simp
  rw [hA, hB] at h
  exact token_id_prefix _ _ _ _ ha hb ((List.prefix_append_right_inj _).mp h)

theorem replaceOcc_append_lt {v : Str} (t : Str) (hv : v ≠ []) (hlt : '<' ∉ v) :
    ∀ (s X : Str), replaceOcc v t (s ++ '<' :: X) =
      replaceOcc v t s ++ replaceOcc v t ('<' :: X) := by
  have H : ∀ (n : Nat) (s X : Str), s.length ≤ n →
      replaceOcc v t (s ++ '<' :: X) =
        replaceOcc v t s ++ replaceOcc v t ('<' :: X) := by
    intro n
    induction n with
    | zero =>
      intro s X hs
      have : s = [] := List.length_eq_zero.mp (Nat.le_zero.mp hs)
      subst this
      rw [replaceOcc_nil, List.nil_append, List.nil_append]
    | succ n ih =>
      intro s X hs
      cases s with
      | nil => rw [replaceOcc_nil, List.nil_append, List.nil_append]
      | cons ch s' =>
        by_cases hpre : v <+: (ch :: s')
        · obtain ⟨s2, hs2⟩ := hpre
          have hvpre1 : v.isPrefixOf ((ch :: s') ++ '<' :: X) = true := by
            rw [List.isPrefixOf_iff_prefix, ← hs2, List.append_assoc]
            exact List.prefix_append v _
          have hvpre2 : v.isPrefixOf (ch :: s') = true := by
            rw [List.isPrefixOf_iff_prefix, ← hs2]
            exact List.prefix_append v s2
          rw [replaceOcc_eq _ _ ((ch :: s') ++ '<' :: X), if_pos ⟨hv, hvpre1⟩,
            replaceOcc_eq _ _ (ch :: s'), if_pos ⟨hv, hvpre2⟩]
          have hd1 : ((ch :: s') ++ '<' :: X).drop v.length = s2 ++ '<' :: X := by
            rw [← hs2, List.append_assoc]
            exact List.drop_left v _
          have hd2 : (ch :: s').drop v.length = s2 := by
            rw [← hs2]
            exact List.drop_left v s2
          have hlen : s2.length ≤ n := by
            have := congrArg List.length hs2
            have hv1 : 1 ≤ v.length := List.length_pos.mpr hv
            simp only [List.length_append, List.length_cons] at this hs
            omega
          rw [hd1, hd2, ih s2 X hlen, List.append_assoc]
        · have hc1 : ¬ (v ≠ [] ∧ v.isPrefixOf ((ch :: s') ++ '<' :: X) = true) := by
            rintro ⟨_, h2⟩
            have hp := List.isPrefixOf_iff_prefix.mp h2
            by_cases hlen : v.length ≤ (ch :: s').length
            · exact hpre (List.prefix_of_prefix_length_le hp
                (List.prefix_append _ _) hlen)
            · have hpp : (ch :: s') ++ ['<'] <+: (ch :: s') ++ '<' :: X :=
                (List.prefix_append_right_inj _).mpr
                  (List.cons_prefix_cons.mpr ⟨rfl, List.nil_prefix⟩)
              have hsub : (ch :: s') ++ ['<'] <+: v :=
                List.prefix_of_prefix_length_le hpp hp (by
                  simp only [List.length_append, List.length_cons,
                    List.length_nil] at hlen ⊢
                  omega)
              exact hlt (hsub.subset (List.mem_append_right _ (by simp)))
          have hc2 : ¬ (v ≠ [] ∧ v.isPrefixOf (ch :: s') = true) := by
            rintro ⟨_, h2⟩
            exact hpre (List.isPrefixOf_iff_prefix.mp h2)
          rw [replaceOcc_eq _ _ ((ch :: s') ++ '<' :: X), if_neg hc1,
            replaceOcc_eq _ _ (ch :: s'), if_neg hc2]
          exact congrArg (ch :: ·)
            (ih s' X (by simp only [List.length_cons] at hs; omega))
  exact fun s X => H s.length s X le_rfl

theorem replaceOcc_append_tok {v : Str} (t : Str) (hgt : '>' ∉ v) :
    ∀ (P X : Str), (∀ u, u <:+ P → u ≠ [] → '>' ∈ u) → ¬ v <:+: P →
      replaceOcc v t (P ++ X) = P ++ replaceOcc v t X := by
  intro P
  induction P with
  | nil =>
    intro X _ _
    rw [List.nil_append, List.nil_append]
  | cons ch P' ih =>
    intro X hsuf hinf
    have hc : ¬ (v ≠ [] ∧ v.isPrefixOf ((ch :: P') ++ X) = true) := by
      rintro ⟨_, h2⟩
      have hp := List.isPrefixOf_iff_prefix.mp h2
      by_cases hlen : v.length ≤ (ch :: P').length
      · exact hinf (List.IsPrefix.isInfix
          (List.prefix_of_prefix_length_le hp (List.prefix_append _ _) hlen))
      · have hsub : (ch :: P') <+: v :=
          List.prefix_of_prefix_length_le (List.prefix_append _ _) hp (by omega)
        exact hgt (hsub.subset (hsuf (ch :: P') (List.suffix_refl _) (by simp)))
    rw [replaceOcc_eq _ _ ((ch :: P') ++ X), if_neg hc]
    exact congrArg (ch :: ·) (ih X
      (fun u hu hn => hsuf u (hu.trans (List.suffix_cons ch P')) hn)
      (fun hh => hinf (List.infix_cons_iff.mpr (Or.inr hh))))

theorem infix_split_lt {v : Str} (hlt : '<' ∉ v) :
    ∀ (s X : Str), v <:+: s ++ '<' :: X → v <:+: s ∨ v <:+: '<' :: X := by
  intro s
  induction s with
  | nil =>
    intro X h
    exact Or.inr (by simpa using h)
  | cons ch s' ih =>
    intro X h
    rw [List.cons_append, List.infix_cons_iff] at h
    rcases h with h | h
    · by_cases hlen : v.length ≤ (ch :: s').length
      · exact Or.inl (List.IsPrefix.isInfix
          (List.prefix_of_prefix_length_le h (List.prefix_append _ _) hlen))
      · exfalso
        have hpp : (ch :: s') ++ ['<'] <+: (ch :: s') ++ '<' :: X :=
          (List.prefix_append_right_inj _).mpr
            (List.cons_prefix_cons.mpr ⟨rfl, List.nil_prefix⟩)
        have hsub : (ch :: s') ++ ['<'] <+: v :=
          List.prefix_of_prefix_length_le hpp h (by
            simp only [List.length_append, List.length_cons,
              List.length_nil] at hlen ⊢
            omega)
        exact hlt (hsub.subset (List.mem_append_right _ (by simp)))
    · rcases ih X h with h2 | h2
      · exact Or.inl (List.infix_cons_iff.mpr (Or.inr h2))
      · exact Or.inr h2

theorem infix_split_tok {v : Str} (hgt : '>' ∉ v) :
    ∀ (P X : Str), (∀ u, u <:+ P → u ≠ [] → '>' ∈ u) →
      v <:+: P ++ X → v <:+: P ∨ v <:+: X := by
  intro P
  induction P with
  | nil =>
    intro X _ h
    exact Or.inr (by simpa using h)
  | cons ch P' ih =>
    intro X hsuf h
    rw [List.cons_append, List.infix_cons_iff] at h
    rcases h with h | h
    · by_cases hlen : v.length ≤ (ch :: P').length
      · exact Or.inl (List.IsPrefix.isInfix
          (List.prefix_of_prefix_length_le h (List.prefix_append _ _) hlen))
      · exfalso
        have hsub : (ch :: P') <+: v :=
          List.prefix_of_prefix_length_le (List.prefix_append _ _) h (by omega)
        exact hgt (hsub.subset (hsuf _ (List.suffix_refl _) (by simp)))
    · rcases ih X
        (fun u hu hn => hsuf u (hu.trans (List.suffix_cons ch P')) hn) h with
        h2 | h2
      · exact Or.inl (List.infix_cons_iff.mpr (Or.inr h2))
      · exact Or.inr h2

theorem jsSplitF_ne_nil : ∀ (n : Nat) (pat c : Str), jsSplitF n pat c ≠ [] := by
  intro n
  induction n with
  | zero => intro pat c; simp [jsSplitF]
  | succ n ih =>
    intro pat c
    simp only [jsSplitF]
    split
    · simp
    · cases c with
      | nil => simp
      | cons ch t =>
        show (jsSplitF n pat t).modifyHead (ch :: ·) ≠ []
        cases hsp : jsSplitF n pat t with
        | nil => exact absurd hsp (ih pat t)
        | cons p0 prest => simp [List.modifyHead]

theorem jsSplitF_head_prefix : ∀ (n : Nat) (pat c u0 : Str),
    (jsSplitF n pat c).head? = some u0 → u0 <+: c := by
  intro n
  induction n with
  | zero =>
    intro pat c u0 h
    simp [jsSplitF] at h
    exact h ▸ List.nil_prefix
  | succ n ih =>
    intro pat c u0 h
    simp only [jsSplitF] at h
    split at h
    · simp only [List.head?_cons, Option.some.injEq] at h
      exact h ▸ List.nil_prefix
    · cases c with
      | nil =>
        simp only [List.head?_cons, Option.some.injEq] at h
        exact h ▸ List.nil_prefix
      | cons ch t =>
        have h' : ((jsSplitF n pat t).modifyHead (ch :: ·)).head? = some u0 := h
        cases hsp : jsSplitF n pat t with
        | nil => exact absurd hsp (jsSplitF_ne_nil n pat t)
        | cons p0 prest =>
          rw [hsp] at h'
          simp only [List.modifyHead, List.head?_cons, Option.some.injEq] at h'
          have hp := ih pat t p0 (by rw [hsp]; rfl)
          exact h' ▸ List.cons_prefix_cons.mpr ⟨rfl, hp⟩

theorem jsSplitF_infix_of_mem : ∀ (n : Nat) (pat c : Str), ∀ u ∈ jsSplitF n pat c,
    u <:+: c := by
  intro n
  induction n with
  | zero =>
    intro pat c u hu
    simp [jsSplitF] at hu
    exact hu ▸ List.nil_infix
  | succ n ih =>
    intro pat c u hu
    simp only [jsSplitF] at hu
    split at hu
    · rcases List.mem_cons.mp hu with h | h
      · exact h ▸ List.nil_infix
      · exact (ih pat _ u h).trans (List.drop_suffix _ c).isInfix
    · cases c with
      | nil =>
        simp only [List.mem_singleton] at hu
        exact hu ▸ List.nil_infix
      | cons ch t =>
        have hu' : u ∈ (jsSplitF n pat t).modifyHead (ch :: ·) := hu
        cases hsp : jsSplitF n pat t with
        | nil => exact absurd hsp (jsSplitF_ne_nil n pat t)
        | cons p0 prest =>
          rw [hsp] at hu'
          simp only [List.modifyHead] at hu'
          rcases List.mem_cons.mp hu' with h | h
          · subst h
            have hp := jsSplitF_head_prefix n pat t p0 (by rw [hsp]; rfl)
            exact List.IsPrefix.isInfix (List.cons_prefix_cons.mpr ⟨rfl, hp⟩)
          · exact List.infix_cons_iff.mpr
              (Or.inr (ih pat t u (by rw [hsp]; exact List.mem_cons_of_mem p0 h)))

theorem jsSplitF_no_occ : ∀ (n : Nat) (pat c : Str), pat ≠ [] →
    ∀ u ∈ jsSplitF n pat c, ¬ pat <:+: u := by
  intro n
  induction n with
  | zero =>
    intro pat c hp u hu
    simp [jsSplitF] at hu
    subst hu
    intro hinf
    exact hp (List.infix_nil.mp hinf)
  | succ n ih =>
    intro pat c hp u hu
    simp only [jsSplitF] at hu
    split at hu
    · rcases List.mem_cons.mp hu with h | h
      · subst h
        intro hinf
        exact hp (List.infix_nil.mp hinf)
      · exact ih pat _ hp u h
    · rename_i hcond
      cases c with
      | nil =>
        simp only [List.mem_singleton] at hu
        subst hu
        intro hinf
        exact hp (List.infix_nil.mp hinf)
      | cons ch t =>
        have hu' : u ∈ (jsSplitF n pat t).modifyHead (ch :: ·) := hu
        cases hsp : jsSplitF n pat t with
        | nil => exact absurd hsp (jsSplitF_ne_nil n pat t)
        | cons p0 prest =>
          rw [hsp] at hu'
          simp only [List.modifyHead] at hu'
          rcases List.mem_cons.mp hu' with h | h
          · subst h
            intro hinf
            rcases List.infix_cons_iff.mp hinf with h2 | h2
            · have hp0 := jsSplitF_head_prefix n pat t p0 (by rw [hsp]; rfl)
              obtain ⟨r, hr⟩ := hp0
              have hpc : pat <+: ch :: t := by
                rw [← hr]
                exact h2.trans (List.cons_prefix_cons.mpr ⟨rfl, List.prefix_append p0 r⟩)
              exact hcond ⟨hp, List.isPrefixOf_iff_prefix.mpr hpc⟩
            · exact ih pat t hp p0
                (by rw [hsp]; exact List.mem_cons_self p0 prest) h2
          · exact ih pat t hp u (by rw [hsp]; exact List.mem_cons_of_mem p0 h)

theorem jsSplitNE_infix_of_mem {pat c : Str} : ∀ u ∈ jsSplitNE pat c, u <:+: c :=
  jsSplitF_infix_of_mem _ pat c

theorem jsSplitNE_no_occ {pat c : Str} (hp : pat ≠ []) :
    ∀ u ∈ jsSplitNE pat c, ¬ pat <:+: u :=
  jsSplitF_no_occ _ pat c hp

/-! ## Decomposition algebra -/

theorem interTok_append_right :
    ∀ (A : List (Str × (Str × SecretData))) (b x : Str),
    interTok A (b ++ x) = interTok A b ++ x := by
  intro A
  induction A with
  | nil => intro b x; rfl
  | cons p rest ih =>
    intro b x
    obtain ⟨s, e⟩ := p
    simp only [interTok]
    rw [ih b x]
    simp [List.append_assoc]

theorem undoD_append_right :
    ∀ (A : List (Str × (Str × SecretData))) (b x : Str),
    undoD A (b ++ x) = undoD A b ++ x := by
  intro A
  induction A with
  | nil => intro b x; rfl
  | cons p rest ih =>
    intro b x
    obtain ⟨s, e⟩ := p
    simp only [undoD]
    rw [ih b x]
    simp [List.append_assoc]

theorem interTok_append :
    ∀ (A B : List (Str × (Str × SecretData))) (r : Str),
    interTok (A ++ B) r = interTok A (interTok B r) := by
  intro A B r
  induction A with
  | nil => rfl
  | cons p rest ih =>
    obtain ⟨s, e⟩ := p
    simp only [List.cons_append, interTok]
    exact congrArg (s ++ generatePlaceholder e.1 e.2 ++ ·) ih

theorem undoD_append :
    ∀ (A B : List (Str × (Str × SecretData))) (r : Str),
    undoD (A ++ B) r = undoD A (undoD B r) := by
  intro A B r
  induction A with
  | nil => rfl
  | cons p rest ih =>
    obtain ⟨s, e⟩ := p
    simp only [List.cons_append, undoD]
    exact congrArg (s ++ e.2.secretValue ++ ·) ih

theorem pieceTok_interTok (e : Str × SecretData) : ∀ parts : List Str,
    interTok (pieceTok e parts).1 (pieceTok e parts).2 =
      jsJoin (generatePlaceholder e.1 e.2) parts := by
  intro parts
  induction parts with
  | nil => rfl
  | cons u rest ih =>
    cases rest with
    | nil => rfl
    | cons u2 rest2 =>
      show u ++ generatePlaceholder e.1 e.2 ++
          interTok (pieceTok e (u2 :: rest2)).1 (pieceTok e (u2 :: rest2)).2 = _
      rw [ih]
      exact (jsJoin_cons_of_ne_nil (by simp)).symm

theorem pieceTok_undoD (e : Str × SecretData) : ∀ parts : List Str,
    undoD (pieceTok e parts).1 (pieceTok e parts).2 =
      jsJoin e.2.secretValue parts := by
  intro parts
  induction parts with
  | nil => rfl
  | cons u rest ih =>
    cases rest with
    | nil => rfl
    | cons u2 rest2 =>
      show u ++ e.2.secretValue ++
          undoD (pieceTok e (u2 :: rest2)).1 (pieceTok e (u2 :: rest2)).2 = _
      rw [ih]
      exact (jsJoin_cons_of_ne_nil (by simp)).symm

theorem pieceTok_mem (e : Str × SecretData) : ∀ parts : List Str,
    (∀ q ∈ (pieceTok e parts).1, q.1 ∈ parts ∧ q.2 = e) ∧
      ((pieceTok e parts).2 ∈ parts ∨ (pieceTok e parts).2 = []) := by
  intro parts
  induction parts with
  | nil => exact ⟨by simp [pieceTok], Or.inr rfl⟩
  | cons u rest ih =>
    cases rest with
    | nil => exact ⟨by simp [pieceTok], Or.inl (by simp [pieceTok])⟩
    | cons u2 rest2 =>
      constructor
      · intro q hq
        have hq' : q ∈ (u, e) :: (pieceTok e (u2 :: rest2)).1 := hq
        rcases List.mem_cons.mp hq' with h | h
        · rw [h]
          exact ⟨by simp, rfl⟩
        · obtain ⟨h1, h2⟩ := ih.1 q h
          exact ⟨List.mem_cons_of_mem u h1, h2⟩
      · have h2 : (pieceTok e (u :: u2 :: rest2)).2 =
            (pieceTok e (u2 :: rest2)).2 := rfl
        rw [h2]
        rcases ih.2 with h | h
        · exact Or.inl (List.mem_cons_of_mem u h)
        · exact Or.inr h

theorem encD_flat {v : Str} (e' : Str × SecretData) (hv : v ≠ [])
    (hlt : '<' ∉ v) (hgt : '>' ∉ v) :
    ∀ (l : List (Str × (Str × SecretData))) (r : Str),
    (∀ p ∈ l, ¬ v <:+: generatePlaceholder p.2.1 p.2.2) →
    interTok (encD v e' l r).1 (encD v e' l r).2 =
      replaceOcc v (generatePlaceholder e'.1 e'.2) (interTok l r) := by
  intro l
  induction l with
  | nil =>
    intro r _
    show interTok (pieceTok e' (jsSplitNE v r)).1 (pieceTok e' (jsSplitNE v r)).2 = _
    rw [pieceTok_interTok]
    exact jsJoin_jsSplitNE v _ hv r
  | cons p rest ih =>
    intro r htok
    obtain ⟨s, e⟩ := p
    have hP := htok (s, e) (List.mem_cons_self _ _)
    have hY := ih r (fun p hp => htok p (List.mem_cons_of_mem _ hp))
    have hL : interTok (encD v e' ((s, e) :: rest) r).1
        (encD v e' ((s, e) :: rest) r).2 =
        replaceOcc v (generatePlaceholder e'.1 e'.2) s ++
          (generatePlaceholder e.1 e.2 ++
            replaceOcc v (generatePlaceholder e'.1 e'.2) (interTok rest r)) := by
      show interTok ((pieceTok e' (jsSplitNE v s)).1 ++
          ((pieceTok e' (jsSplitNE v s)).2, e) :: (encD v e' rest r).1)
          (encD v e' rest r).2 = _
      rw [interTok_append]
      show interTok (pieceTok e' (jsSplitNE v s)).1
          ((pieceTok e' (jsSplitNE v s)).2 ++ generatePlaceholder e.1 e.2 ++
            interTok (encD v e' rest r).1 (encD v e' rest r).2) = _
      rw [hY, List.append_assoc, interTok_append_right, pieceTok_interTok,
        jsJoin_jsSplitNE v _ hv s]
    rw [hL]
    have hR : interTok ((s, e) :: rest) r =
        s ++ '<' :: (String.toList "!secret_" ++ getPlaceholderId e.1 e.2 ++
          (String.toList "!>" ++ interTok rest r)) := by
      show s ++ generatePlaceholder e.1 e.2 ++ interTok rest r = _
      rw [genP_cons]
      simp
    rw [hR, replaceOcc_append_lt (generatePlaceholder e'.1 e'.2) hv hlt]
    have hPX : ('<' : Char) ::
        (String.toList "!secret_" ++ getPlaceholderId e.1 e.2 ++
          (String.toList "!>" ++ interTok rest r)) =
        generatePlaceholder e.1 e.2 ++ interTok rest r := by
      rw [genP_cons]
      simp
    rw [hPX, replaceOcc_append_tok (generatePlaceholder e'.1 e'.2) hgt
      (generatePlaceholder e.1 e.2) (interTok rest r) genP_suffix_gt hP]

theorem encD_undo {v : Str} (e' : Str × SecretData) (hv : v ≠ [])
    (hveq : v = e'.2.secretValue) :
    ∀ (l : List (Str × (Str × SecretData))) (r : Str),
    undoD (encD v e' l r).1 (encD v e' l r).2 = undoD l r := by
  intro l
  induction l with
  | nil =>
    intro r
    show undoD (pieceTok e' (jsSplitNE v r)).1 (pieceTok e' (jsSplitNE v r)).2 = r
    rw [pieceTok_undoD, ← hveq, jsJoin_jsSplitNE v v hv r, replaceOcc_self]
  | cons p rest ih =>
    intro r
    obtain ⟨s, e⟩ := p
    show undoD ((pieceTok e' (jsSplitNE v s)).1 ++
        ((pieceTok e' (jsSplitNE v s)).2, e) :: (encD v e' rest r).1)
        (encD v e' rest r).2 = _
    rw [undoD_append]
    show undoD (pieceTok e' (jsSplitNE v s)).1
        ((pieceTok e' (jsSplitNE v s)).2 ++ e.2.secretValue ++
          undoD (encD v e' rest r).1 (encD v e' rest r).2) = _
    rw [ih, List.append_assoc, undoD_append_right, pieceTok_undoD, ← hveq,
      jsJoin_jsSplitNE v v hv s, replaceOcc_self]
    show s ++ (e.2.secretValue ++ undoD rest r) = s ++ e.2.secretValue ++ undoD rest r
    rw [List.append_assoc]

theorem encD_mem {v : Str} (e' : Str × SecretData) :
    ∀ (l : List (Str × (Str × SecretData))) (r : Str),
    (∀ q ∈ (encD v e' l r).1,
      ((∃ p ∈ l, q.1 <:+: p.1) ∨ q.1 <:+: r) ∧
        (q.2 = e' ∨ ∃ p ∈ l, q.2 = p.2)) ∧
    (((encD v e' l r).2 <:+: r) ∨ ∃ p ∈ l, (encD v e' l r).2 <:+: p.1) := by
  intro l
  induction l with
  | nil =>
    intro r
    constructor
    · intro q hq
      have hq' : q ∈ (pieceTok e' (jsSplitNE v r)).1 := hq
      obtain ⟨h1, h2⟩ := (pieceTok_mem e' (jsSplitNE v r)).1 q hq'
      exact ⟨Or.inr (jsSplitNE_infix_of_mem q.1 h1), Or.inl h2⟩
    · refine Or.inl ?_
      show (pieceTok e' (jsSplitNE v r)).2 <:+: r
      rcases (pieceTok_mem e' (jsSplitNE v r)).2 with h | h
      · exact jsSplitNE_infix_of_mem _ h
      · rw [h]
        exact List.nil_infix
  | cons p rest ih =>
    intro r
    obtain ⟨s, e⟩ := p
    constructor
    · intro q hq
      have hq' : q ∈ (pieceTok e' (jsSplitNE v s)).1 ++
          ((pieceTok e' (jsSplitNE v s)).2, e) :: (encD v e' rest r).1 := hq
      rcases List.mem_append.mp hq' with h | h
      · obtain ⟨h1, h2⟩ := (pieceTok_mem e' (jsSplitNE v s)).1 q h
        exact ⟨Or.inl ⟨(s, e), List.mem_cons_self _ _, jsSplitNE_infix_of_mem q.1 h1⟩,
          Or.inl h2⟩
      · rcases List.mem_cons.mp h with h | h
        · constructor
          · refine Or.inl ⟨(s, e), List.mem_cons_self _ _, ?_⟩
            rw [h]
            rcases (pieceTok_mem e' (jsSplitNE v s)).2 with h2 | h2
            · exact jsSplitNE_infix_of_mem _ h2
            · rw [h2]
              exact List.nil_infix
          · refine Or.inr ⟨(s, e), List.mem_cons_self _ _, ?_⟩
            rw [h]
        · obtain ⟨hA, hB⟩ := (ih r).1 q h
          constructor
          · rcases hA with ⟨p2, hp2, hinf⟩ | hA
            · exact Or.inl ⟨p2, List.mem_cons_of_mem _ hp2, hinf⟩
            · exact Or.inr hA
          · rcases hB with hB | ⟨p2, hp2, hqe⟩
            · exact Or.inl hB
            · exact Or.inr ⟨p2, List.mem_cons_of_mem _ hp2, hqe⟩
    · have h2 : (encD v e' ((s, e) :: rest) r).2 = (encD v e' rest r).2 := rfl
      rw [h2]
      rcases (ih r).2 with h | ⟨p2, hp2, hinf⟩
      · exact Or.inl h
      · exact Or.inr ⟨p2, List.mem_cons_of_mem _ hp2, hinf⟩

theorem encD_vfree {v : Str} (e' : Str × SecretData) (hv : v ≠ []) :
    ∀ (l : List (Str × (Str × SecretData))) (r : Str),
    (∀ q ∈ (encD v e' l r).1, ¬ v <:+: q.1) ∧ ¬ v <:+: (encD v e' l r).2 := by
  intro l
  induction l with
  | nil =>
    intro r
    constructor
    · intro q hq
      have hq' : q ∈ (pieceTok e' (jsSplitNE v r)).1 := hq
      obtain ⟨h1, _⟩ := (pieceTok_mem e' (jsSplitNE v r)).1 q hq'
      exact jsSplitNE_no_occ hv q.1 h1
    · show ¬ v <:+: (pieceTok e' (jsSplitNE v r)).2
      rcases (pieceTok_mem e' (jsSplitNE v r)).2 with h | h
      · exact jsSplitNE_no_occ hv _ h
      · rw [h]
        intro hinf
        exact hv (List.infix_nil.mp hinf)
  | cons p rest ih =>
    intro r
    obtain ⟨s, e⟩ := p
    constructor
    · intro q hq
      have hq' : q ∈ (pieceTok e' (jsSplitNE v s)).1 ++
          ((pieceTok e' (jsSplitNE v s)).2, e) :: (encD v e' rest r).1 := hq
      rcases List.mem_append.mp hq' with h | h
      · obtain ⟨h1, _⟩ := (pieceTok_mem e' (jsSplitNE v s)).1 q h
        exact jsSplitNE_no_occ hv q.1 h1
      · rcases List.mem_cons.mp h with h | h
        · rw [h]
          rcases (pieceTok_mem e' (jsSplitNE v s)).2 with h2 | h2
          · exact jsSplitNE_no_occ hv _ h2
          · rw [h2]
            intro hinf
            exact hv (List.infix_nil.mp hinf)
        · exact (ih r).1 q h
    · have h2 : (encD v e' ((s, e) :: rest) r).2 = (encD v e' rest r).2 := rfl
      rw [h2]
      exact (ih r).2

/-! ## Path model lemmas -/

theorem takeWhile_append_all {p : Char → Bool} {l₁ : Str} (l₂ : Str)
    (h : ∀ a ∈ l₁, p a = true) :
    (l₁ ++ l₂).takeWhile p = l₁ ++ l₂.takeWhile p := by
  induction l₁ with
  | nil => rfl
  | cons a t ih =>
    have ha := h a (by simp)
    have iht := ih (fun a ha2 => h a (by simp [ha2]))
    simp [List.takeWhile_cons, ha, iht]

theorem dropWhile_append_all {p : Char → Bool} {l₁ : Str} (l₂ : Str)
    (h : ∀ a ∈ l₁, p a = true) :
    (l₁ ++ l₂).dropWhile p = l₂.dropWhile p := by
  induction l₁ with
  | nil => rfl
  | cons a t ih =>
    have ha := h a (by simp)
    have iht := ih (fun a ha2 => h a (by simp [ha2]))
    simp [List.dropWhile_cons, ha, iht]

theorem takeWhile_all {p : Char → Bool} {l : Str} (h : ∀ a ∈ l, p a = true) :
    l.takeWhile p = l := by
  simpa using takeWhile_append_all (p := p) [] h

theorem dropWhile_cons_neg {p : Char → Bool} {a : Char} (l : Str)
    (h : p a = false) : (a :: l).dropWhile p = a :: l := by
  simp [List.dropWhile_cons, h]

theorem takeWhile_cons_neg {p : Char → Bool} {a : Char} (l : Str)
    (h : p a = false) : (a :: l).takeWhile p = [] := by
  simp [List.takeWhile_cons, h]

theorem modifyHead_append_left {l₁ l₂ : List Str} (f : Str → Str) (h : l₁ ≠ []) :
    (l₁ ++ l₂).modifyHead f = l₁.modifyHead f ++ l₂ := by
  cases l₁ with
  | nil => exact absurd rfl h
  | cons x t => simp [List.modifyHead]

theorem splitSep_cons_pos (sep : Char) (t : Str) :
    splitSep sep (sep :: t) = [] :: splitSep sep t := by
  simp [splitSep]

theorem splitSep_cons_neg {sep ch : Char} (t : Str) (h : ¬ ch = sep) :
    splitSep sep (ch :: t) = (splitSep sep t).modifyHead (ch :: ·) := by
  simp [splitSep, h]

theorem splitSep_ne_nil (sep : Char) (x : Str) : splitSep sep x ≠ [] := by
  induction x with
  | nil => simp [splitSep]
  | cons ch t ih =>
    by_cases hc : ch = sep
    · subst hc; rw [splitSep_cons_pos]; simp
    · rw [splitSep_cons_neg t hc]
      exact modifyHead_ne_nil _ ih

theorem splitSep_no_sep {sep : Char} {x : Str} (h : sep ∉ x) : splitSep sep x = [x] := by
  induction x with
  | nil => rfl
  | cons ch t ih =>
    rw [splitSep_cons_neg t (by rintro rfl; exact h (by simp)),
      ih (fun hm => h (by simp [hm]))]
    rfl

theorem splitSep_append_sep (sep : Char) (a b : Str) :
    splitSep sep (a ++ sep :: b) = splitSep sep a ++ splitSep sep b := by
  induction a with
  | nil => simp [splitSep_cons_pos, splitSep]
  | cons ch t ih =>
    by_cases hc : ch = sep
    · subst hc
      rw [List.cons_append, splitSep_cons_pos, splitSep_cons_pos, ih, List.cons_append]
    · rw [List.cons_append, splitSep_cons_neg _ hc, splitSep_cons_neg _ hc, ih,
        modifyHead_append_left _ (splitSep_ne_nil sep t)]

theorem mem_splitSep_no_sep {sep : Char} {x s : Str} (h : s ∈ splitSep sep x) :
    sep ∉ s := by
  induction x generalizing s with
  | nil =>
    simp only [splitSep, List.mem_singleton] at h
    subst h; simp
  | cons ch t ih =>
    by_cases hc : ch = sep
    · subst hc
      rw [splitSep_cons_pos] at h
      rcases List.mem_cons.mp h with rfl | hm
      · simp
      · exact ih hm
    · rw [splitSep_cons_neg t hc] at h
      cases hsp : splitSep sep t with
      | nil => exact absurd hsp (splitSep_ne_nil sep t)
      | cons y r =>
        rw [hsp] at h
        simp only [List.modifyHead, List.mem_cons] at h
        rcases h with rfl | hm
        · intro hmem
          rcases List.mem_cons.mp hmem with rfl | hy
          · exact hc rfl
          · exact ih (s := y) (by rw [hsp]; simp) hy
        · exact ih (s := s) (by rw [hsp]; simp [hm])

theorem jsJoin_ne_nil {d : Str} {L : List Str} (h : L ≠ [])
    (hall : ∀ s ∈ L, s ≠ []) : jsJoin d L ≠ [] := by
  cases L with
  | nil => exact absurd rfl h
  | cons x r =>
    cases r with
    | nil => exact hall x (by simp)
    | cons y r2 =>
      simp only [jsJoin]
      intro hx
      rcases List.append_eq_nil.mp hx with ⟨hx1, _⟩
      rcases List.append_eq_nil.mp hx1 with ⟨hx2, _⟩
      exact hall x (by simp) hx2

theorem jsJoin_append_last (d : Str) {L : List Str} (x : Str) (h : L ≠ []) :
    jsJoin d (L ++ [x]) = jsJoin d L ++ d ++ x := by
  induction L with
  | nil => exact absurd rfl h
  | cons y r ih =>
    cases r with
    | nil => rfl
    | cons z r2 =>
      have h1 : (y :: z :: r2) ++ [x] = y :: (z :: r2 ++ [x]) := by simp
      rw [h1, jsJoin_cons_of_ne_nil (by simp : (z :: r2 ++ [x] : List Str) ≠ []),
        ih (by simp),
        show jsJoin d (y :: z :: r2) = y ++ d ++ jsJoin d (z :: r2) from
          jsJoin_cons_of_ne_nil (by simp)]
      simp [List.append_assoc]

theorem splitSep_jsJoin_inv {sep : Char} {L : List Str} (h : L ≠ [])
    (hall : ∀ s ∈ L, sep ∉ s) :
    splitSep sep (jsJoin [sep] L) = L := by
  induction L with
  | nil => exact absurd rfl h
  | cons x r ih =>
    cases r with
    | nil => simpa [jsJoin] using splitSep_no_sep (hall x (by simp))
    | cons y r2 =>
      have hj : jsJoin [sep] (x :: y :: r2) = x ++ sep :: jsJoin [sep] (y :: r2) := by
        simp [jsJoin]
      rw [hj, splitSep_append_sep, splitSep_no_sep (hall x (by simp)),
        ih (by simp) (fun s hs => hall s (by simp [hs]))]
      rfl

theorem normSegs_nil (a : Bool) (acc : List Str) : normSegs a acc [] = acc := rfl

theorem normSegs_skip {s : Str} (hs : s = [] ∨ s = ['.']) (a : Bool)
    (acc rest : List Str) : normSegs a acc (s :: rest) = normSegs a acc rest := by
  rcases hs with rfl | rfl <;> simp [normSegs]

theorem normSegs_real {s : Str} (hs : realSeg s) (a : Bool) (acc rest : List Str) :
    normSegs a acc (s :: rest) = normSegs a (acc ++ [s]) rest := by
  obtain ⟨h1, h2, h3⟩ := hs
  simp [normSegs, h1, h2, h3]

theorem normSegs_dotdot_pop {acc : List Str} (h1 : acc ≠ [])
    (h2 : acc.getLast? ≠ some ['.', '.']) (a : Bool) (rest : List Str) :
    normSegs a acc (['.', '.'] :: rest) = normSegs a acc.dropLast rest := by
  simp [normSegs, h1, h2]

theorem normSegs_dotdot_push {acc : List Str}
    (h : ¬(acc ≠ [] ∧ acc.getLast? ≠ some ['.', '.'])) (rest : List Str) :
    normSegs true acc (['.', '.'] :: rest) =
      normSegs true (acc ++ [['.', '.']]) rest := by
  simp [normSegs, h]

theorem normSegs_dotdot_drop {acc : List Str}
    (h : ¬(acc ≠ [] ∧ acc.getLast? ≠ some ['.', '.'])) (rest : List Str) :
    normSegs false acc (['.', '.'] :: rest) = normSegs false acc rest := by
  simp [normSegs, h]

theorem normSegs_append_real {x : Str} (hx : realSeg x) (a : Bool) :
    ∀ (segs : List Str) (acc : List Str),
      normSegs a acc (segs ++ [x]) = normSegs a acc segs ++ [x] := by
  intro segs
  induction segs with
  | nil =>
    intro acc
    rw [List.nil_append, normSegs_real hx, normSegs_nil, normSegs_nil]
  | cons s rest ih =>
    intro acc
    by_cases h1 : s = [] ∨ s = ['.']
    · rw [List.cons_append, normSegs_skip h1, normSegs_skip h1, ih]
    · by_cases h2 : s = ['.', '.']
      · subst h2
        by_cases h3 : acc ≠ [] ∧ acc.getLast? ≠ some ['.', '.']
        · rw [List.cons_append, normSegs_dotdot_pop h3.1 h3.2,
            normSegs_dotdot_pop h3.1 h3.2, ih]
        · cases a with
          | true =>
            rw [List.cons_append, normSegs_dotdot_push h3, normSegs_dotdot_push h3, ih]
          | false =>
            rw [List.cons_append, normSegs_dotdot_drop h3, normSegs_dotdot_drop h3, ih]
      · have hs : realSeg s := ⟨fun h => h1 (Or.inl h), fun h => h1 (Or.inr h), h2⟩
        rw [List.cons_append, normSegs_real hs, normSegs_real hs, ih]

theorem normSegs_reals {R : List Str} (hR : ∀ r ∈ R, realSeg r) (a : Bool) :
    ∀ acc, normSegs a acc R = acc ++ R := by
  induction R with
  | nil => intro acc; simp [normSegs_nil]
  | cons r rest ih =>
    intro acc
    rw [normSegs_real (hR r (by simp)), ih (fun r hr => hR r (by simp [hr]))]
    simp

theorem replicate_dotdot_cond (j : Nat) :
    ¬(List.replicate j (['.', '.'] : Str) ≠ [] ∧
      (List.replicate j (['.', '.'] : Str)).getLast? ≠ some ['.', '.']) := by
  rintro ⟨h1, h2⟩
  rw [List.getLast?_replicate] at h2
  cases j with
  | zero => exact h1 rfl
  | succ j => exact h2 (by simp)

theorem normSegs_dotdots (R : List Str) : ∀ (k j : Nat),
    normSegs true (List.replicate j ['.', '.'])
        (List.replicate k ['.', '.'] ++ R) =
      normSegs true (List.replicate (j + k) ['.', '.']) R := by
  intro k
  induction k with
  | zero => intro j; simp
  | succ k ih =>
    intro j
    rw [List.replicate_succ, List.cons_append,
      normSegs_dotdot_push (replicate_dotdot_cond j), ← List.replicate_succ']
    rw [ih (j + 1)]
    have harith : j + 1 + k = j + (k + 1) := by omega
    rw [harith]

theorem normSegs_canon_id {a : Bool} {S : List Str} (h : canonSegs a S) :
    normSegs a [] S = S := by
  obtain ⟨k, R, rfl, hR, hk⟩ := h
  cases a with
  | false =>
    rw [hk rfl]
    simpa using normSegs_reals hR false []
  | true =>
    have h0 := normSegs_dotdots R k 0
    simp only [List.replicate_zero, Nat.zero_add] at h0
    rw [h0, normSegs_reals hR true]

theorem normSegs_canon {a : Bool} :
    ∀ (segs : List Str) {acc : List Str}, canonSegs a acc →
      canonSegs a (normSegs a acc segs) := by
  intro segs
  induction segs with
  | nil => intro acc h; exact h
  | cons s rest ih =>
    intro acc hacc
    by_cases h1 : s = [] ∨ s = ['.']
    · rw [normSegs_skip h1]; exact ih hacc
    · by_cases h2 : s = ['.', '.']
      · subst h2
        obtain ⟨k, R, rfl, hR, hk⟩ := hacc
        by_cases h3 : (List.replicate k (['.', '.'] : Str) ++ R) ≠ [] ∧
            (List.replicate k (['.', '.'] : Str) ++ R).getLast? ≠ some ['.', '.']
        · rw [normSegs_dotdot_pop h3.1 h3.2]
          apply ih
          have hRne : R ≠ [] := by
            intro hRnil
            subst hRnil
            simp only [List.append_nil] at h3
            exact replicate_dotdot_cond k h3
          rw [List.dropLast_append_of_ne_nil _ hRne]
          exact ⟨k, R.dropLast, rfl,
            fun r hr => hR r ((List.dropLast_sublist R).mem hr), hk⟩
        · have hR0 : R = [] := by
            by_contra hRne
            apply h3
            refine ⟨by simp [hRne], ?_⟩
            rw [List.getLast?_append_of_ne_nil _ hRne]
            intro hlast
            have hmem := List.mem_of_mem_getLast? hlast
            exact (hR _ hmem).2.2 rfl
          subst hR0
          cases a with
          | true =>
            rw [normSegs_dotdot_push h3]
            apply ih
            rw [List.append_nil, ← List.replicate_succ']
            exact ⟨k + 1, [], by simp, by simp, by simp⟩
          | false =>
            rw [normSegs_dotdot_drop h3]
            apply ih
            exact ⟨k, [], by simp [hk rfl], by simp, hk⟩
      · have hs : realSeg s := ⟨fun h => h1 (Or.inl h), fun h => h1 (Or.inr h), h2⟩
        rw [normSegs_real hs]
        obtain ⟨k, R, rfl, hR, hk⟩ := hacc
        apply ih
        refine ⟨k, R ++ [s], by simp, ?_, hk⟩
        intro r hr
        rcases List.mem_append.mp hr with hr | hr
        · exact hR r hr
        · rw [List.mem_singleton.mp hr]; exact hs

theorem posixBasename_no_sep (p : Str) : '/' ∉ posixBasename p := by
  intro h
  simp only [posixBasename, List.mem_reverse] at h
  have := List.mem_takeWhile_imp h
  simp at this

theorem posixBasename_of_no_sep {p : Str} (h : '/' ∉ p) : posixBasename p = p := by
  show ((p.reverse.dropWhile (· = '/')).takeWhile (· ≠ '/')).reverse = p
  cases hr : p.reverse with
  | nil =>
    have hp : p = [] := by simpa using congrArg List.reverse hr
    subst hp
    rfl
  | cons a t =>
    have hmem : ∀ y ∈ a :: t, y ∈ p := by
      intro y hy
      rw [← List.mem_reverse, hr]
      exact hy
    have hane : ¬(a = '/') := fun heq => h (by
      have := hmem a (by simp); rwa [heq] at this)
    rw [dropWhile_cons_neg _ (by simpa using hane),
      takeWhile_all (fun y hy => by
        simp only [decide_eq_true_eq, ne_eq]
        intro heq
        exact h (by have := hmem y hy; rwa [heq] at this))]
    rw [← hr, List.reverse_reverse]

theorem posixBasename_append (A : Str) {x : Str} (hx : x ≠ []) (hxs : '/' ∉ x) :
    posixBasename (A ++ '/' :: x) = x := by
  show (((A ++ '/' :: x).reverse.dropWhile (· = '/')).takeWhile (· ≠ '/')).reverse = x
  have hrev : (A ++ '/' :: x).reverse = x.reverse ++ '/' :: A.reverse := by simp
  rw [hrev]
  have hxmem : ∀ y ∈ x.reverse, y ≠ '/' := by
    intro y hy heq
    rw [List.mem_reverse] at hy
    exact hxs (heq ▸ hy)
  cases hxr : x.reverse with
  | nil => exact absurd (by simpa using congrArg List.reverse hxr) hx
  | cons a t =>
    have h1 : (a :: t) ++ '/' :: A.reverse = a :: (t ++ '/' :: A.reverse) := by simp
    have hane := hxmem a (by rw [hxr]; simp)
    rw [h1, dropWhile_cons_neg _ (by simpa using hane), ← h1,
      takeWhile_append_all _ (fun y hy => by
        simpa using hxmem y (by rw [hxr]; exact hy)),
      takeWhile_cons_neg _ (by simp), List.append_nil, ← hxr,
      List.reverse_reverse]

theorem posixDirname_of_no_sep {p : Str} (hp : p ≠ []) (h : '/' ∉ p) :
    posixDirname p = ['.'] := by
  have hr2 : (p.reverse.dropWhile (· = '/')).dropWhile (· ≠ '/') = [] := by
    have hall : ∀ y ∈ p.reverse, y ≠ '/' := by
      intro y hy heq
      rw [List.mem_reverse] at hy
      exact h (heq ▸ hy)
    cases hr : p.reverse with
    | nil => rfl
    | cons a t =>
      rw [dropWhile_cons_neg _ (by simpa using hall a (by rw [hr]; simp))]
      have : ∀ y ∈ a :: t, (decide ¬(y = '/')) = true := by
        intro y hy
        simpa using hall y (by rw [hr]; exact hy)
      simpa using @dropWhile_append_all (· ≠ '/') (a :: t) [] this
  have hhead : ¬ p.head? = some '/' := by
    cases p with
    | nil => simp
    | cons a t =>
      simp only [List.head?_cons, Option.some.injEq]
      intro heq
      exact h (heq ▸ List.mem_cons_self a t)
  simp only [posixDirname, if_neg hp, hr2]
  simp [hhead]

theorem posixDirname_root_base {x : Str} (hx : x ≠ []) (hxs : '/' ∉ x) :
    posixDirname ('/' :: x) = ['/'] := by
  have hrev : ('/' :: x).reverse = x.reverse ++ ['/'] := by simp
  have hxmem : ∀ y ∈ x.reverse, y ≠ '/' := by
    intro y hy heq
    rw [List.mem_reverse] at hy
    exact hxs (heq ▸ hy)
  have hr1 : ('/' :: x).reverse.dropWhile (· = '/') = x.reverse ++ ['/'] := by
    rw [hrev]
    cases hxr : x.reverse with
    | nil => exact absurd (by simpa using congrArg List.reverse hxr) hx
    | cons a t =>
      have h1 : (a :: t) ++ ['/'] = a :: (t ++ ['/']) := by simp
      rw [h1, dropWhile_cons_neg _
        (by simpa using hxmem a (by rw [hxr]; simp)), ← h1]
  have hr2 : (('/' :: x).reverse.dropWhile (· = '/')).dropWhile (· ≠ '/') = ['/'] := by
    rw [hr1, dropWhile_append_all _ (fun y hy => by simpa using hxmem y hy)]
    rfl
  simp only [posixDirname, if_neg (by simp : ¬('/' :: x) = []), hr2]
  simp

theorem posixDirname_append {x : Str} (hx1 : x ≠ []) (hx2 : '/' ∉ x) {A : Str}
    (hA : A ≠ []) (hA1 : A ≠ ['/']) : posixDirname (A ++ '/' :: x) = A := by
  have hxmem : ∀ y ∈ x.reverse, y ≠ '/' := by
    intro y hy heq
    rw [List.mem_reverse] at hy
    exact hx2 (heq ▸ hy)
  have hrev : (A ++ '/' :: x).reverse = x.reverse ++ '/' :: A.reverse := by simp
  have hr1 : (A ++ '/' :: x).reverse.dropWhile (· = '/') =
      x.reverse ++ '/' :: A.reverse := by
    rw [hrev]
    cases hxr : x.reverse with
    | nil => exact absurd (by simpa using congrArg List.reverse hxr) hx1
    | cons a t =>
      have h1 : (a :: t) ++ '/' :: A.reverse = a :: (t ++ '/' :: A.reverse) := by simp
      rw [h1, dropWhile_cons_neg _
        (by simpa using hxmem a (by rw [hxr]; simp)), ← h1]
  have hr2 : ((A ++ '/' :: x).reverse.dropWhile (· = '/')).dropWhile (· ≠ '/') =
      '/' :: A.reverse := by
    rw [hr1, dropWhile_append_all _ (fun y hy => by simpa using hxmem y hy)]
    rfl
  have hlen : ('/' :: A.reverse).length = A.length + 1 := by simp
  have hAlen : 1 ≤ A.length := List.length_pos.mpr hA
  have hm1 : ¬ ('/' :: A.reverse).length = 1 := by
    simp only [hlen]
    omega
  have hm2 : ¬ ((A ++ '/' :: x).head? = some '/' ∧ ('/' :: A.reverse).length = 2) := by
    rintro ⟨hhd, hln⟩
    have hAeq : A.length = 1 := by simp only [hlen] at hln; omega
    rw [List.head?_append_of_ne_nil _ hA] at hhd
    cases A with
    | nil => simp at hAeq
    | cons a t =>
      cases t with
      | nil =>
        simp only [List.head?_cons, Option.some.injEq] at hhd
        exact hA1 (by rw [hhd])
      | cons b r => simp at hAeq
  simp only [posixDirname, if_neg (by simp : ¬(A ++ '/' :: x) = []), hr2]
  rw [if_neg (by simp), if_neg hm1, if_neg hm2, hlen]
  simp [List.take_left A ('/' :: x)]

theorem canonSegs_nil (a : Bool) : canonSegs a [] :=
  ⟨0, [], rfl, by simp, fun _ => rfl⟩

theorem canonSegs_elem_ne_nil {a : Bool} {S : List Str} (h : canonSegs a S) :
    ∀ s ∈ S, s ≠ [] := by
  obtain ⟨k, R, rfl, hR, _⟩ := h
  intro s hs
  rcases List.mem_append.mp hs with hs | hs
  · rw [List.eq_of_mem_replicate hs]; simp
  · exact (hR s hs).1

theorem mem_normSegs {a : Bool} :
    ∀ (segs : List Str) (acc : List Str) (s : Str), s ∈ normSegs a acc segs →
      s ∈ acc ∨ s ∈ segs ∨ s = ['.', '.'] := by
  intro segs
  induction segs with
  | nil =>
    intro acc s h
    rw [normSegs_nil] at h
    exact Or.inl h
  | cons t rest ih =>
    intro acc s h
    by_cases h1 : t = [] ∨ t = ['.']
    · rw [normSegs_skip h1] at h
      rcases ih acc s h with h | h | h
      · exact Or.inl h
      · exact Or.inr (Or.inl (by simp [h]))
      · exact Or.inr (Or.inr h)
    · by_cases h2 : t = ['.', '.']
      · subst h2
        by_cases h3 : acc ≠ [] ∧ acc.getLast? ≠ some ['.', '.']
        · rw [normSegs_dotdot_pop h3.1 h3.2] at h
          rcases ih _ s h with h | h | h
          · exact Or.inl ((List.dropLast_sublist acc).mem h)
          · exact Or.inr (Or.inl (by simp [h]))
          · exact Or.inr (Or.inr h)
        · cases a with
          | true =>
            rw [normSegs_dotdot_push h3] at h
            rcases ih _ s h with h | h | h
            · rcases List.mem_append.mp h with h | h
              · exact Or.inl h
              · exact Or.inr (Or.inr (List.mem_singleton.mp h))
            · exact Or.inr (Or.inl (by simp [h]))
            · exact Or.inr (Or.inr h)
          | false =>
            rw [normSegs_dotdot_drop h3] at h
            rcases ih _ s h with h | h | h
            · exact Or.inl h
            · exact Or.inr (Or.inl (by simp [h]))
            · exact Or.inr (Or.inr h)
      · have hs2 : realSeg t := ⟨fun hq => h1 (Or.inl hq), fun hq => h1 (Or.inr hq), h2⟩
        rw [normSegs_real hs2] at h
        rcases ih _ s h with h | h | h
        · rcases List.mem_append.mp h with h | h
          · exact Or.inl h
          · exact Or.inr (Or.inl (by simp [List.mem_singleton.mp h]))
        · exact Or.inr (Or.inl (by simp [h]))
        · exact Or.inr (Or.inr h)

theorem normSegs_splitSep_no_sep {a : Bool} {d : Str} :
    ∀ s ∈ normSegs a [] (splitSep '/' d), '/' ∉ s := by
  intro s hs
  rcases mem_normSegs _ _ _ hs with h | h | h
  · simp at h
  · exact mem_splitSep_no_sep h
  · subst h; simp

/-- Structure of a two-argument join with a clean final segment. -/
theorem posixJoin2_struct {d x : Str} (hd : d ≠ []) (hx : cleanSeg x) :
    posixJoin2 d x =
      (if d.head? = some '/' then
        '/' :: jsJoin ['/'] (normSegs false [] (splitSep '/' d) ++ [x])
      else
        jsJoin ['/'] (normSegs true [] (splitSep '/' d) ++ [x])) := by
  obtain ⟨hx1, hx2, hx3, hx4⟩ := hx
  have hjoined : posixJoin2 d x = posixNormalize (d ++ '/' :: x) := by
    simp only [posixJoin2, if_neg hd, if_neg hx1]
    rw [if_neg (by simp [hd])]
  rw [hjoined]
  have hhead : (d ++ '/' :: x).head? = d.head? := List.head?_append_of_ne_nil _ hd
  have hlast : (d ++ '/' :: x).getLast? = x.getLast? := by
    have : d ++ '/' :: x = (d ++ ['/']) ++ x := by simp
    rw [this, List.getLast?_append_of_ne_nil _ hx1]
  have hlastx : ¬ x.getLast? = some '/' := by
    intro hsome
    exact hx2 (List.mem_of_mem_getLast? hsome)
  have hsplit : splitSep '/' (d ++ '/' :: x) = splitSep '/' d ++ [x] := by
    rw [splitSep_append_sep, splitSep_no_sep hx2]
  by_cases habs : d.head? = some '/'
  · rw [if_pos habs]
    have hcanon : canonSegs false (normSegs false [] (splitSep '/' d)) :=
      normSegs_canon _ (canonSegs_nil false)
    have hcore : jsJoin ['/'] (normSegs false [] (splitSep '/' d) ++ [x]) ≠ [] := by
      apply jsJoin_ne_nil (by simp)
      intro s hs
      rcases List.mem_append.mp hs with hs | hs
      · exact canonSegs_elem_ne_nil hcanon s hs
      · rw [List.mem_singleton.mp hs]; exact hx1
    simp only [posixNormalize, if_neg (by simp [hd] : ¬ d ++ '/' :: x = [])]
    rw [hhead, hlast, hsplit]
    simp only [decide_eq_true habs, Bool.not_true,
      normSegs_append_real ⟨hx1, hx3, hx4⟩]
    rw [if_neg (by simpa using hcore)]
    simp [hlastx]
  · rw [if_neg habs]
    have hcanon : canonSegs true (normSegs true [] (splitSep '/' d)) :=
      normSegs_canon _ (canonSegs_nil true)
    have hcore : jsJoin ['/'] (normSegs true [] (splitSep '/' d) ++ [x]) ≠ [] := by
      apply jsJoin_ne_nil (by simp)
      intro s hs
      rcases List.mem_append.mp hs with hs | hs
      · exact canonSegs_elem_ne_nil hcanon s hs
      · rw [List.mem_singleton.mp hs]; exact hx1
    simp only [posixNormalize, if_neg (by simp [hd] : ¬ d ++ '/' :: x = [])]
    rw [hhead, hlast, hsplit]
    simp only [decide_eq_false habs, Bool.not_false,
      normSegs_append_real ⟨hx1, hx3, hx4⟩]
    rw [if_neg (by simpa using hcore)]
    simp [hlastx, habs]

/-- The basename of a join with a clean final segment is that segment. -/
theorem posixBasename_posixJoin2 {d x : Str} (hd : d ≠ []) (hx : cleanSeg x) :
    posixBasename (posixJoin2 d x) = x := by
  obtain ⟨hx1, hx2, hx3, hx4⟩ := hx
  rw [posixJoin2_struct hd ⟨hx1, hx2, hx3, hx4⟩]
  by_cases habs : d.head? = some '/'
  · rw [if_pos habs]
    cases hSd : normSegs false [] (splitSep '/' d) with
    | nil =>
      show posixBasename ([] ++ '/' :: jsJoin ['/'] [x]) = x
      exact posixBasename_append [] hx1 hx2
    | cons s r =>
      rw [jsJoin_append_last _ x (by simp)]
      have hsh : '/' :: (jsJoin ['/'] (s :: r) ++ ['/'] ++ x) =
          ('/' :: jsJoin ['/'] (s :: r)) ++ '/' :: x := by simp
      rw [hsh]
      exact posixBasename_append _ hx1 hx2
  · rw [if_neg habs]
    cases hSd : normSegs true [] (splitSep '/' d) with
    | nil =>
      show posixBasename (jsJoin ['/'] [x]) = x
      exact posixBasename_of_no_sep hx2
    | cons s r =>
      rw [jsJoin_append_last _ x (by simp)]
      have hsh : jsJoin ['/'] (s :: r) ++ ['/'] ++ x =
          jsJoin ['/'] (s :: r) ++ '/' :: x := by simp
      rw [hsh]
      exact posixBasename_append _ hx1 hx2

/-- Joining the dirname of a join with a fresh clean segment is the same
as joining the original directory with it: the directory part of the
normalized path re-normalizes to itself. -/
theorem posixJoin2_posixDirname_posixJoin2 {d x y : Str} (hd : d ≠ [])
    (hx : cleanSeg x) (hy : cleanSeg y) :
    posixJoin2 (posixDirname (posixJoin2 d x)) y = posixJoin2 d y := by
  obtain ⟨hx1, hx2, hx3, hx4⟩ := hx
  rw [posixJoin2_struct hd ⟨hx1, hx2, hx3, hx4⟩, posixJoin2_struct hd hy]
  by_cases habs : d.head? = some '/'
  · rw [if_pos habs, if_pos habs]
    have hcanon : canonSegs false (normSegs false [] (splitSep '/' d)) :=
      normSegs_canon _ (canonSegs_nil false)
    have hnosl := normSegs_splitSep_no_sep (a := false) (d := d)
    cases hSd : normSegs false [] (splitSep '/' d) with
    | nil =>
      have hdir : posixDirname ('/' :: jsJoin ['/'] ([] ++ [x])) = ['/'] := by
        show posixDirname ('/' :: jsJoin ['/'] [x]) = ['/']
        exact posixDirname_root_base hx1 hx2
      rw [hdir, posixJoin2_struct (by simp) hy,
        if_pos (show (['/'] : Str).head? = some '/' from rfl)]
      rfl
    | cons s r =>
      rw [hSd] at hcanon hnosl
      have hne : (s :: r : List Str) ≠ [] := by simp
      have hJne : jsJoin ['/'] (s :: r) ≠ [] :=
        jsJoin_ne_nil hne (fun q hq2 => canonSegs_elem_ne_nil hcanon q hq2)
      have hA : '/' :: jsJoin ['/'] ((s :: r) ++ [x]) =
          ('/' :: jsJoin ['/'] (s :: r)) ++ '/' :: x := by
        rw [jsJoin_append_last _ x hne]; simp
      have hA1 : ('/' :: jsJoin ['/'] (s :: r) : Str) ≠ ['/'] := by
        intro hq
        exact hJne (by simpa using congrArg List.tail hq)
      rw [hA, posixDirname_append hx1 hx2 (by simp) hA1,
        posixJoin2_struct (by simp) hy,
        if_pos (show ('/' :: jsJoin ['/'] (s :: r) : Str).head? = some '/' from rfl)]
      have hsplit2 : splitSep '/' ('/' :: jsJoin ['/'] (s :: r)) =
          [] :: (s :: r) := by
        rw [splitSep_cons_pos, splitSep_jsJoin_inv hne (fun q hq => hnosl q hq)]
      rw [hsplit2, normSegs_skip (Or.inl rfl) false, normSegs_canon_id hcanon]
  · rw [if_neg habs, if_neg habs]
    have hcanon : canonSegs true (normSegs true [] (splitSep '/' d)) :=
      normSegs_canon _ (canonSegs_nil true)
    have hnosl := normSegs_splitSep_no_sep (a := true) (d := d)
    cases hSd : normSegs true [] (splitSep '/' d) with
    | nil =>
      have hdir : posixDirname (jsJoin ['/'] ([] ++ [x])) = ['.'] := by
        show posixDirname (jsJoin ['/'] [x]) = ['.']
        exact posixDirname_of_no_sep hx1 hx2
      rw [hdir, posixJoin2_struct (by simp) hy, if_neg (by simp)]
      rfl
    | cons s r =>
      rw [hSd] at hcanon hnosl
      have hne : (s :: r : List Str) ≠ [] := by simp
      have hsne : s ≠ [] := canonSegs_elem_ne_nil hcanon s (by simp)
      have hJne : jsJoin ['/'] (s :: r) ≠ [] :=
        jsJoin_ne_nil hne (fun q hq2 => canonSegs_elem_ne_nil hcanon q hq2)
      have hjoinhead : (jsJoin ['/'] (s :: r)).head? = s.head? := by
        cases r with
        | nil => rfl
        | cons z r2 =>
          rw [jsJoin_cons_of_ne_nil (by simp)]
          have : s ++ ['/'] ++ jsJoin ['/'] (z :: r2) =
              s ++ ('/' :: jsJoin ['/'] (z :: r2)) := by simp
          rw [this, List.head?_append_of_ne_nil _ hsne]
      have hheadne : ¬ (jsJoin ['/'] (s :: r)).head? = some '/' := by
        rw [hjoinhead]
        cases s with
        | nil => exact absurd rfl hsne
        | cons a t =>
          simp only [List.head?_cons, Option.some.injEq]
          intro heq
          exact (hnosl (a :: t) (by simp)) (heq ▸ List.mem_cons_self a t)
      have hAexpr : jsJoin ['/'] ((s :: r) ++ [x]) =
          jsJoin ['/'] (s :: r) ++ '/' :: x := by
        rw [jsJoin_append_last _ x hne]; simp
      have hA1 : jsJoin ['/'] (s :: r) ≠ ['/'] := by
        intro hq
        exact hheadne (by rw [hq]; rfl)
      rw [hAexpr, posixDirname_append hx1 hx2 hJne hA1,
        posixJoin2_struct hJne hy, if_neg hheadne,
        splitSep_jsJoin_inv hne (fun q hq => hnosl q hq),
        normSegs_canon_id hcanon]

theorem posixDirname_ne_nil (p : Str) : posixDirname p ≠ [] := by
  unfold posixDirname
  split
  · simp
  · split
    · split <;> simp
    · split
      · simp
      · split
        · simp
        · rename_i hp hr2 hm1 _
          intro htake
          rcases List.take_eq_nil_iff.mp htake with h | h
          · have hlen : ((p.reverse.dropWhile (· = '/')).dropWhile (· ≠ '/')).length ≠ 0 := by
              simpa [List.length_eq_zero] using hr2
            omega
          · exact hp h

theorem posixExtname_mem_subset {b : Str} : ∀ ch ∈ posixExtname b, ch ∈ b := by
  intro ch hch
  unfold posixExtname at hch
  split at hch
  · simp at hch
  · split at hch
    · simp at hch
    · split at hch
      · simp at hch
      · exact List.drop_subset _ b hch

theorem posixBasenameExt_no_sep (q ext : Str) : '/' ∉ posixBasenameExt q ext := by
  unfold posixBasenameExt
  split
  · split
    · simp
    · split
      · exact posixBasename_no_sep q
      · split
        · intro h
          exact posixBasename_no_sep q (List.take_subset _ _ h)
        · exact posixBasename_no_sep q
  · exact posixBasename_no_sep q

theorem posixBasenameExt_empty_ext (q : Str) :
    posixBasenameExt q [] = posixBasename q := by
  unfold posixBasenameExt
  rw [if_neg]
  simp

/-- Stripping a nonempty proper-suffix extension from a separator-free
name. -/
theorem posixBasenameExt_strip {stem2 ext : Str} (hst : stem2 ≠ [])
    (hext : ext ≠ []) (hnosl : '/' ∉ stem2 ++ ext) :
    posixBasenameExt (stem2 ++ ext) ext = stem2 := by
  have hlen : ext.length ≤ (stem2 ++ ext).length := by simp
  have hne : ¬ ext = stem2 ++ ext := by
    intro h
    have := congrArg List.length h
    simp only [List.length_append] at this
    have := List.length_pos.mpr hst
    omega
  unfold posixBasenameExt
  rw [if_pos ⟨hext, hlen⟩, if_neg hne, posixBasename_of_no_sep hnosl, if_neg hne,
    if_pos (List.isSuffixOf_iff_suffix.mpr (List.suffix_append stem2 ext))]
  have harith : (stem2 ++ ext).length - ext.length = stem2.length := by
    simp only [List.length_append]
    omega
  rw [harith]
  exact List.take_left stem2 ext

/-- Computing the Node extension of a name decomposed around its last
dot. -/
theorem posixExtname_of_decomp {stem2 e : Str} (hst : stem2 ≠ []) (he : '.' ∉ e)
    (hne : stem2 ++ '.' :: e ≠ ['.', '.']) :
    posixExtname (stem2 ++ '.' :: e) = '.' :: e := by
  have hrev : (stem2 ++ '.' :: e).reverse = e.reverse ++ '.' :: stem2.reverse := by
    simp
  have htk : ((stem2 ++ '.' :: e).reverse.takeWhile (· ≠ '.')) = e.reverse := by
    rw [hrev, takeWhile_append_all _ (fun a ha => by
      simp only [decide_eq_true_eq, ne_eq]
      intro heq
      exact he (heq ▸ List.mem_reverse.mp ha)),
      takeWhile_cons_neg _ (by simp), List.append_nil]
  have hlb : (stem2 ++ '.' :: e).length = stem2.length + e.length + 1 := by
    simp only [List.length_append, List.length_cons]
    omega
  have hstpos := List.length_pos.mpr hst
  unfold posixExtname
  rw [htk]
  rw [if_neg (by
    simp only [List.length_reverse, hlb]
    omega)]
  rw [if_neg (by
    simp only [List.length_reverse, hlb]
    omega)]
  rw [if_neg hne]
  have harith : (stem2 ++ '.' :: e).length - e.reverse.length - 1 = stem2.length := by
    simp only [List.length_reverse, hlb]
    omega
  rw [harith]
  exact List.drop_left stem2 ('.' :: e)

/-- A name with a nonempty Node extension decomposes around its last
dot. -/
theorem posixExtname_decomp {b : Str} (h : posixExtname b ≠ []) :
    ∃ stem e, b = stem ++ '.' :: e ∧ '.' ∉ e ∧ stem ≠ [] ∧
      posixExtname b = '.' :: e := by
  by_cases h1 : ((b.reverse.takeWhile (· ≠ '.'))).length = b.length
  · exact absurd (show posixExtname b = [] by unfold posixExtname; rw [if_pos h1]) h
  · by_cases h2 : b.length - ((b.reverse.takeWhile (· ≠ '.'))).length - 1 = 0
    · exact absurd (show posixExtname b = [] by
        unfold posixExtname; rw [if_neg h1, if_pos h2]) h
    · by_cases h3 : b = ['.', '.']
      · exact absurd (show posixExtname b = [] by rw [h3]; rfl) h
      · cases hdw : b.reverse.dropWhile (· ≠ '.') with
        | nil =>
          exfalso
          apply h1
          have := List.takeWhile_append_dropWhile (· ≠ '.') b.reverse
          rw [hdw, List.append_nil] at this
          rw [this]
          simp
        | cons c rs =>
          have hc : c = '.' := by
            have := List.head?_dropWhile_not (· ≠ '.') b.reverse
            rw [hdw] at this
            simpa using this
          subst hc
          have hsplitb := List.takeWhile_append_dropWhile (· ≠ '.') b.reverse
          rw [hdw] at hsplitb
          refine ⟨rs.reverse, (b.reverse.takeWhile (· ≠ '.')).reverse,
            ?_, ?_, ?_, ?_⟩
          · have := congrArg List.reverse hsplitb
            simp only [List.reverse_append, List.reverse_cons, List.reverse_reverse]
              at this
            calc b = rs.reverse ++ ['.'] ++
                (b.reverse.takeWhile (· ≠ '.')).reverse := this.symm
              _ = rs.reverse ++ '.' :: (b.reverse.takeWhile (· ≠ '.')).reverse := by
                  simp
          · intro hdot
            have := List.mem_takeWhile_imp (List.mem_reverse.mp hdot)
            simp at this
          · intro hrs
            apply h2
            have hlen := congrArg List.length hsplitb
            simp only [List.length_append, List.length_cons,
              List.length_reverse] at hlen ⊢
            have : rs.length = 0 := by
              simpa using congrArg List.length hrs
            omega
          · have hb : b = rs.reverse ++ '.' :: (b.reverse.takeWhile (· ≠ '.')).reverse := by
              have := congrArg List.reverse hsplitb
              simp only [List.reverse_append, List.reverse_cons,
                List.reverse_reverse] at this
              calc b = rs.reverse ++ ['.'] ++
                  (b.reverse.takeWhile (· ≠ '.')).reverse := this.symm
                _ = rs.reverse ++ '.' :: (b.reverse.takeWhile (· ≠ '.')).reverse := by
                    simp
            have hrsne : rs.reverse ≠ [] := by
              intro hrs
              apply h2
              have hlen := congrArg List.length hsplitb
              simp only [List.length_append, List.length_cons,
                List.length_reverse] at hlen ⊢
              have : rs.length = 0 := by
                simpa using congrArg List.length hrs
              omega
            have hedot : '.' ∉ (b.reverse.takeWhile (· ≠ '.')).reverse := by
              intro hdot
              have := List.mem_takeWhile_imp (List.mem_reverse.mp hdot)
              simp at this
            calc posixExtname b
                = posixExtname (rs.reverse ++ '.' :: (b.reverse.takeWhile (· ≠ '.')).reverse) := by
                  rw [← hb]
              _ = '.' :: (b.reverse.takeWhile (· ≠ '.')).reverse :=
                  posixExtname_of_decomp hrsne hedot (by rw [← hb]; exact h3)

theorem stripRedactedSuffix_append (stem : Str) :
    stripRedactedSuffix (stem ++ String.toList ".redacted") = stem := by
  unfold stripRedactedSuffix
  rw [if_pos (List.isSuffixOf_iff_suffix.mpr
    (List.suffix_append stem (String.toList ".redacted")))]
  have harith : (stem ++ String.toList ".redacted").length -
      (String.toList ".redacted").length = stem.length := by
    simp only [List.length_append]
    omega
  rw [harith]
  exact List.take_left stem (String.toList ".redacted")

theorem stripRedactedSuffix_of_no_suffix {s : Str}
    (h : ¬ (String.toList ".redacted") <:+ s) : stripRedactedSuffix s = s := by
  unfold stripRedactedSuffix
  rw [if_neg (fun hc => h (List.isSuffixOf_iff_suffix.mp hc))]

/-- The basename assembled by `getRedactedFilePath` is a clean path
segment whenever its stem and extension are separator-free. -/
theorem redactedBasename_cleanSeg (nwe ext : Str) (hn : '/' ∉ nwe)
    (he : '/' ∉ ext) :
    cleanSeg (nwe ++ String.toList ".redacted" ++ ext) := by
  have h9 : (String.toList ".redacted").length = 9 := rfl
  refine ⟨?_, ?_, ?_, ?_⟩
  · intro h
    exact absurd (List.append_eq_nil.mp (List.append_eq_nil.mp h).1).2 (by decide)
  · intro hmem
    rcases List.mem_append.mp hmem with hm | hm
    · rcases List.mem_append.mp hm with hm2 | hm2
      · exact hn hm2
      · exact (by decide : ('/' : Char) ∉ String.toList ".redacted") hm2
    · exact he hm
  · intro h
    have hl := congrArg List.length h
    simp only [List.length_append, List.length_cons, List.length_nil] at hl
    omega
  · intro h
    have hl := congrArg List.length h
    simp only [List.length_append, List.length_cons, List.length_nil] at hl
    omega

theorem foldl_congr_mem {α β γ : Type} {l : List α} {f : β → α → β} {g : β → γ → β}
    {h : α → γ} (H : ∀ acc e, e ∈ l → f acc e = g acc (h e)) (init : β) :
    l.foldl f init = (l.map h).foldl g init := by
  induction l generalizing init with
  | nil => rfl
  | cons x xs ih =>
    simp only [List.map, List.foldl]
    rw [H init x (by simp)]
    exact ih (fun acc e he => H acc e (by simp [he])) _

theorem generatePlaceholder_ne_nil (id : Str) (d : SecretData) :
    generatePlaceholder id d ≠ [] := by
  intro h
  have hlen := congrArg List.length h
  have h9 : (String.toList "<!secret_").length = 9 := rfl
  simp only [generatePlaceholder, List.length_append, List.length_nil, h9] at hlen
  omega

/-- One source iteration equals one specification iteration, for a
nonempty source string. -/
theorem encryptStep_eq_specStep (acc : Str × Bool) (e : Str × SecretData)
    (hv : e.2.secretValue ≠ []) :
    encryptStep acc e =
      (if e.2.secretValue <:+: acc.1 then
        (replaceOcc e.2.secretValue (generatePlaceholder e.1 e.2) acc.1, true)
      else acc) := by
  unfold encryptStep
  by_cases hocc : e.2.secretValue <:+: acc.1
  · rw [if_pos (jsIncludes_iff.mpr hocc), if_pos hocc]
    simp only [jsSplit, if_neg hv]
    rw [jsJoin_jsSplitNE _ _ hv]
  · rw [if_neg, if_neg hocc]
    intro hc
    exact hocc (jsIncludes_iff.mp hc)

theorem decryptStep_eq_specStep (acc : Str × Bool) (e : Str × SecretData) :
    decryptStep acc e =
      (if generatePlaceholder e.1 e.2 <:+: acc.1 then
        (replaceOcc (generatePlaceholder e.1 e.2) e.2.secretValue acc.1, true)
      else acc) := by
  have hv := generatePlaceholder_ne_nil e.1 e.2
  unfold decryptStep
  by_cases hocc : generatePlaceholder e.1 e.2 <:+: acc.1
  · rw [if_pos (jsIncludes_iff.mpr hocc), if_pos hocc]
    simp only [jsSplit, if_neg hv]
    rw [jsJoin_jsSplitNE _ _ hv]
  · rw [if_neg, if_neg hocc]
    intro hc
    exact hocc (jsIncludes_iff.mp hc)

/-- C1: the per-file substitution core iterates records in catalogue
order; whenever the source string (secret value for encrypt, placeholder
token for decrypt) occurs as a literal substring of the content, it
replaces every occurrence of it with the target string by exact literal
leftmost replacement; the changed flag is set iff at least one replacement
occurred.  Stated as equality with the specification-level core
`specSubstitute` (which uses list-infix as the substring test and
`replaceOcc` as replace-all), for catalogues with nonempty secret values:
an empty secret value makes "every occurrence" vacuous (claim C10 covers
that edge case). -/
theorem c1_substitution_core_refines_spec (secrets : SecretsMap) (c : Str)
    (hv : ∀ e ∈ secrets, e.2.secretValue ≠ []) :
    encryptContent secrets c =
      specSubstitute
        (secrets.map (fun e => (e.2.secretValue, generatePlaceholder e.1 e.2))) c
    ∧ decryptContent secrets c =
      specSubstitute
        (secrets.map (fun e => (generatePlaceholder e.1 e.2, e.2.secretValue))) c := by
  constructor
  · unfold encryptContent specSubstitute
    apply foldl_congr_mem
    intro acc e he
    exact encryptStep_eq_specStep acc e (hv e he)
  · unfold decryptContent specSubstitute
    apply foldl_congr_mem
    intro acc e _
    exact decryptStep_eq_specStep acc e

/-- Witness for the C1 theorem at a concrete one-record catalogue and
file content. -/
theorem c1_witness :
    encryptContent [(String.toList "k", SecretData.legacy (String.toList "v"))]
        (String.toList "avb")
      = specSubstitute
          ([(String.toList "k", SecretData.legacy (String.toList "v"))].map
            (fun e => (e.2.secretValue, generatePlaceholder e.1 e.2)))
          (String.toList "avb")
    ∧ decryptContent [(String.toList "k", SecretData.legacy (String.toList "v"))]
        (String.toList "avb")
      = specSubstitute
          ([(String.toList "k", SecretData.legacy (String.toList "v"))].map
            (fun e => (generatePlaceholder e.1 e.2, e.2.secretValue)))
          (String.toList "avb") :=
  c1_substitution_core_refines_spec _ _ (by decide)

/-! ## The substitution engine over decompositions -/

theorem encryptStep_fst (acc : Str × Bool) (e : Str × SecretData)
    (hv : e.2.secretValue ≠ []) :
    (encryptStep acc e).1 =
      replaceOcc e.2.secretValue (generatePlaceholder e.1 e.2) acc.1 := by
  rw [encryptStep_eq_specStep acc e hv]
  by_cases h : e.2.secretValue <:+: acc.1
  · rw [if_pos h]
  · rw [if_neg h, replaceOcc_no_occ h]

theorem decryptStep_fst (acc : Str × Bool) (e : Str × SecretData) :
    (decryptStep acc e).1 =
      replaceOcc (generatePlaceholder e.1 e.2) e.2.secretValue acc.1 := by
  rw [decryptStep_eq_specStep acc e]
  by_cases h : generatePlaceholder e.1 e.2 <:+: acc.1
  · rw [if_pos h]
  · rw [if_neg h, replaceOcc_no_occ h]

theorem encryptStep_snd (acc : Str × Bool) (e : Str × SecretData) :
    (encryptStep acc e).2 = (jsIncludes acc.1 e.2.secretValue || acc.2) := by
  show (if jsIncludes acc.1 e.2.secretValue then
      (jsJoin (generatePlaceholder e.1 e.2) (jsSplit acc.1 e.2.secretValue), true)
    else acc).2 = _
  cases hg : jsIncludes acc.1 e.2.secretValue
  · rw [if_neg (by simp : ¬ false = true), Bool.false_or]
  · rw [if_pos rfl, Bool.true_or]

theorem encFold_flag_mono : ∀ (E : SecretsMap) (acc : Str × Bool),
    acc.2 = true → (E.foldl encryptStep acc).2 = true := by
  intro E
  induction E with
  | nil => exact fun _ h => h
  | cons e E' ih =>
    intro acc h
    rw [List.foldl_cons]
    exact ih _ (by rw [encryptStep_snd, h, Bool.or_true])

theorem encFold_flag_false : ∀ (E : SecretsMap) (x : Str),
    (E.foldl encryptStep (x, false)).2 = false →
    (E.foldl encryptStep (x, false)).1 = x ∧
      ∀ e ∈ E, jsIncludes x e.2.secretValue = false := by
  intro E
  induction E with
  | nil => exact fun x _ => ⟨rfl, by simp⟩
  | cons e E' ih =>
    intro x hflag
    rw [List.foldl_cons] at hflag ⊢
    cases hg : jsIncludes x e.2.secretValue with
    | true =>
      exfalso
      have hstep : (encryptStep (x, false) e).2 = true := by
        rw [encryptStep_snd, hg, Bool.true_or]
      exact absurd ((encFold_flag_mono E' _ hstep).symm.trans hflag) (by decide)
    | false =>
      have hstep : encryptStep (x, false) e = (x, false) := by
        show (if jsIncludes x e.2.secretValue then
            (jsJoin (generatePlaceholder e.1 e.2) (jsSplit x e.2.secretValue), true)
          else (x, false)) = (x, false)
        rw [if_neg (by simp [hg])]
      rw [hstep] at hflag ⊢
      obtain ⟨h1, h2⟩ := ih x hflag
      refine ⟨h1, fun e2 he2 => ?_⟩
      rcases List.mem_cons.mp he2 with h | h
      · rw [h]
        exact hg
      · exact h2 e2 h

theorem encFold_id : ∀ (E : SecretsMap) (x : Str),
    (∀ e ∈ E, jsIncludes x e.2.secretValue = false) →
    E.foldl encryptStep (x, false) = (x, false) := by
  intro E
  induction E with
  | nil => exact fun _ _ => rfl
  | cons e E' ih =>
    intro x h
    rw [List.foldl_cons]
    have hstep : encryptStep (x, false) e = (x, false) := by
      show (if jsIncludes x e.2.secretValue then
          (jsJoin (generatePlaceholder e.1 e.2) (jsSplit x e.2.secretValue), true)
        else (x, false)) = (x, false)
      rw [if_neg (by simp [h e (List.mem_cons_self e E')])]
    rw [hstep]
    exact ih x (fun e2 he2 => h e2 (List.mem_cons_of_mem e he2))

theorem enc_changed_of_empty : ∀ (E : SecretsMap) (acc : Str × Bool),
    (∃ e ∈ E, e.2.secretValue = []) → (E.foldl encryptStep acc).2 = true := by
  intro E
  induction E with
  | nil =>
    rintro acc ⟨e, he, _⟩
    exact absurd he (List.not_mem_nil e)
  | cons e E' ih =>
    rintro acc ⟨e2, he2, hval⟩
    rw [List.foldl_cons]
    rcases List.mem_cons.mp he2 with h | h
    · subst h
      apply encFold_flag_mono
      rw [encryptStep_snd, hval, jsIncludes_nil_pat, Bool.true_or]
    · exact ih _ ⟨e2, h, hval⟩

theorem encFold : ∀ (E : SecretsMap) (l : List (Str × (Str × SecretData)))
    (r : Str) (b : Bool),
    (∀ e2 ∈ E, e2.2.secretValue ≠ [] ∧ '<' ∉ e2.2.secretValue ∧
      '>' ∉ e2.2.secretValue) →
    (∀ e2 ∈ E, ∀ p ∈ l,
      ¬ e2.2.secretValue <:+: generatePlaceholder p.2.1 p.2.2) →
    (∀ e2 ∈ E, ∀ e3 ∈ E,
      ¬ e2.2.secretValue <:+: generatePlaceholder e3.1 e3.2) →
    ∃ l2 r2,
      (E.foldl encryptStep (interTok l r, b)).1 = interTok l2 r2 ∧
      (∀ q ∈ l2, (∃ p ∈ l, q.1 <:+: p.1) ∨ q.1 <:+: r) ∧
      (∀ q ∈ l2, q.2 ∈ E ∨ ∃ p ∈ l, q.2 = p.2) ∧
      ((∃ p ∈ l, r2 <:+: p.1) ∨ r2 <:+: r) ∧
      (∀ e2 ∈ E, (∀ q ∈ l2, ¬ e2.2.secretValue <:+: q.1) ∧
        ¬ e2.2.secretValue <:+: r2) ∧
      undoD l2 r2 = undoD l r := by
  intro E
  induction E with
  | nil =>
    intro l r b _ _ _
    exact ⟨l, r, rfl, fun q hq => Or.inl ⟨q, hq, List.infix_refl _⟩,
      fun q hq => Or.inr ⟨q, hq, rfl⟩, Or.inr (List.infix_refl r),
      fun e2 he2 => absurd he2 (List.not_mem_nil e2), rfl⟩
  | cons e' E' ih =>
    intro l r b hE hTl hTE
    obtain ⟨hv, hlt, hgt⟩ := hE e' (List.mem_cons_self _ _)
    rw [List.foldl_cons]
    have hstep1 : (encryptStep (interTok l r, b) e').1 =
        interTok (encD e'.2.secretValue e' l r).1
          (encD e'.2.secretValue e' l r).2 := by
      rw [encryptStep_fst _ _ hv]
      exact (encD_flat e' hv hlt hgt l r
        (fun p hp => hTl e' (List.mem_cons_self _ _) p hp)).symm
    have hpair : encryptStep (interTok l r, b) e' =
        (interTok (encD e'.2.secretValue e' l r).1
          (encD e'.2.secretValue e' l r).2,
          (encryptStep (interTok l r, b) e').2) :=
      Prod.ext hstep1 rfl
    rw [hpair]
    have hmem := @encD_mem e'.2.secretValue e' l r
    have hfree := encD_vfree e' hv l r
    have hTl' : ∀ e2 ∈ E', ∀ p ∈ (encD e'.2.secretValue e' l r).1,
        ¬ e2.2.secretValue <:+: generatePlaceholder p.2.1 p.2.2 := by
      intro e2 he2 p hp
      rcases (hmem.1 p hp).2 with h | ⟨p2, hp2, hq⟩
      · rw [h]
        exact hTE e2 (List.mem_cons_of_mem _ he2) e' (List.mem_cons_self _ _)
      · rw [hq]
        exact hTl e2 (List.mem_cons_of_mem _ he2) p2 hp2
    obtain ⟨l2, r2, hfold, hpieces, hents, hr2, hvfree, hundo⟩ :=
      ih (encD e'.2.secretValue e' l r).1 (encD e'.2.secretValue e' l r).2
        (encryptStep (interTok l r, b) e').2
        (fun e2 he2 => hE e2 (List.mem_cons_of_mem _ he2)) hTl'
        (fun e2 he2 e3 he3 => hTE e2 (List.mem_cons_of_mem _ he2) e3
          (List.mem_cons_of_mem _ he3))
    refine ⟨l2, r2, hfold, ?_, ?_, ?_, ?_, ?_⟩
    · intro q hq
      rcases hpieces q hq with ⟨p1, hp1, hinf⟩ | hinf
      · rcases (hmem.1 p1 hp1).1 with ⟨p, hp, hinf2⟩ | hinf2
        · exact Or.inl ⟨p, hp, hinf.trans hinf2⟩
        · exact Or.inr (hinf.trans hinf2)
      · rcases hmem.2 with h | ⟨p, hp, hinf2⟩
        · exact Or.inr (hinf.trans h)
        · exact Or.inl ⟨p, hp, hinf.trans hinf2⟩
    · intro q hq
      rcases hents q hq with h | ⟨p1, hp1, hq2⟩
      · exact Or.inl (List.mem_cons_of_mem _ h)
      · rcases (hmem.1 p1 hp1).2 with h2 | ⟨p, hp, hq3⟩
        · exact Or.inl (by rw [hq2, h2]; exact List.mem_cons_self _ _)
        · exact Or.inr ⟨p, hp, hq2.trans hq3⟩
    · rcases hr2 with ⟨p1, hp1, hinf⟩ | hinf
      · rcases (hmem.1 p1 hp1).1 with ⟨p, hp, hinf2⟩ | hinf2
        · exact Or.inl ⟨p, hp, hinf.trans hinf2⟩
        · exact Or.inr (hinf.trans hinf2)
      · rcases hmem.2 with h | ⟨p, hp, hinf2⟩
        · exact Or.inr (hinf.trans h)
        · exact Or.inl ⟨p, hp, hinf.trans hinf2⟩
    · intro e2 he2
      rcases List.mem_cons.mp he2 with h | h
      · subst h
        constructor
        · intro q hq
          rcases hpieces q hq with ⟨p1, hp1, hinf⟩ | hinf
          · exact fun hocc => hfree.1 p1 hp1 (hocc.trans hinf)
          · exact fun hocc => hfree.2 (hocc.trans hinf)
        · rcases hr2 with ⟨p1, hp1, hinf⟩ | hinf
          · exact fun hocc => hfree.1 p1 hp1 (hocc.trans hinf)
          · exact fun hocc => hfree.2 (hocc.trans hinf)
      · exact hvfree e2 h
    · rw [hundo]
      exact encD_undo e' hv rfl l r

theorem interTok_no_occ {v : Str} (hlt : '<' ∉ v)
    (hgt : '>' ∉ v) :
    ∀ (l : List (Str × (Str × SecretData))) (r : Str),
    (∀ p ∈ l, ¬ v <:+: p.1 ∧ ¬ v <:+: generatePlaceholder p.2.1 p.2.2) →
    ¬ v <:+: r → ¬ v <:+: interTok l r := by
  intro l
  induction l with
  | nil => exact fun r _ hr => hr
  | cons p rest ih =>
    intro r hl hr hocc
    obtain ⟨s, e⟩ := p
    obtain ⟨hs, hP⟩ := hl (s, e) (List.mem_cons_self _ _)
    have hrest := ih r (fun p2 hp2 => hl p2 (List.mem_cons_of_mem _ hp2)) hr
    have hshape : interTok ((s, e) :: rest) r =
        s ++ '<' :: (String.toList "!secret_" ++ getPlaceholderId e.1 e.2 ++
          (String.toList "!>" ++ interTok rest r)) := by
      show s ++ generatePlaceholder e.1 e.2 ++ interTok rest r = _
      rw [genP_cons]
      simp
    rw [hshape] at hocc
    rcases infix_split_lt hlt s _ hocc with h | h
    · exact hs h
    · have heq : ('<' : Char) ::
          (String.toList "!secret_" ++ getPlaceholderId e.1 e.2 ++
            (String.toList "!>" ++ interTok rest r)) =
          generatePlaceholder e.1 e.2 ++ interTok rest r := by
        rw [genP_cons]
        simp
      rw [heq] at h
      rcases infix_split_tok hgt _ _ genP_suffix_gt h with h3 | h3
      · exact hP h3
      · exact hrest h3

/-! ## The decryption direction over segment lists -/

theorem flatS_no_tok : ∀ (L : List Seg), (∀ e, Seg.tok e ∉ L) →
    flatS L = undoS L := by
  intro L
  induction L with
  | nil => exact fun _ => rfl
  | cons g rest ih =>
    intro h
    cases g with
    | raw s =>
      show s ++ flatS rest = s ++ undoS rest
      rw [ih (fun e he => h e (List.mem_cons_of_mem _ he))]
    | tok e => exact absurd (List.mem_cons_self _ _) (h e)

theorem undoS_decS (e' : Str × SecretData) :
    ∀ (L : List Seg),
    (∀ e, Seg.tok e ∈ L →
      getPlaceholderId e.1 e.2 = getPlaceholderId e'.1 e'.2 →
      e.2.secretValue = e'.2.secretValue) →
    undoS (decS e' L) = undoS L := by
  intro L
  induction L with
  | nil => exact fun _ => rfl
  | cons g rest ih =>
    intro h
    cases g with
    | raw s =>
      show s ++ undoS (decS e' rest) = s ++ undoS rest
      rw [ih (fun e he hp => h e (List.mem_cons_of_mem _ he) hp)]
    | tok e =>
      show undoS ((if getPlaceholderId e.1 e.2 = getPlaceholderId e'.1 e'.2 then
          Seg.raw e'.2.secretValue else Seg.tok e) :: decS e' rest) = _
      by_cases hp : getPlaceholderId e.1 e.2 = getPlaceholderId e'.1 e'.2
      · rw [if_pos hp]
        show e'.2.secretValue ++ undoS (decS e' rest) =
          e.2.secretValue ++ undoS rest
        rw [ih (fun e2 he2 hp2 => h e2 (List.mem_cons_of_mem _ he2) hp2),
          h e (List.mem_cons_self _ _) hp]
      · rw [if_neg hp]
        show e.2.secretValue ++ undoS (decS e' rest) =
          e.2.secretValue ++ undoS rest
        rw [ih (fun e2 he2 hp2 => h e2 (List.mem_cons_of_mem _ he2) hp2)]

theorem decS_raw_mem (e' : Str × SecretData) :
    ∀ (L : List Seg) (s : Str), Seg.raw s ∈ decS e' L →
      Seg.raw s ∈ L ∨ s = e'.2.secretValue := by
  intro L
  induction L with
  | nil =>
    intro s h
    exact absurd h (List.not_mem_nil _)
  | cons g rest ih =>
    intro s h
    cases g with
    | raw s2 =>
      have h' : Seg.raw s ∈ Seg.raw s2 :: decS e' rest := h
      rcases List.mem_cons.mp h' with h2 | h2
      · exact Or.inl (by rw [h2]; exact List.mem_cons_self _ _)
      · rcases ih s h2 with h3 | h3
        · exact Or.inl (List.mem_cons_of_mem _ h3)
        · exact Or.inr h3
    | tok e =>
      have h' : Seg.raw s ∈
          (if getPlaceholderId e.1 e.2 = getPlaceholderId e'.1 e'.2 then
            Seg.raw e'.2.secretValue else Seg.tok e) :: decS e' rest := h
      rcases List.mem_cons.mp h' with h2 | h2
      · by_cases hp : getPlaceholderId e.1 e.2 = getPlaceholderId e'.1 e'.2
        · rw [if_pos hp] at h2
          injection h2 with h3
          exact Or.inr h3
        · rw [if_neg hp] at h2
          exact Seg.noConfusion h2
      · rcases ih s h2 with h3 | h3
        · exact Or.inl (List.mem_cons_of_mem _ h3)
        · exact Or.inr h3

theorem decS_tok_mem (e' : Str × SecretData) :
    ∀ (L : List Seg) (e : Str × SecretData), Seg.tok e ∈ decS e' L →
      Seg.tok e ∈ L ∧
        getPlaceholderId e.1 e.2 ≠ getPlaceholderId e'.1 e'.2 := by
  intro L
  induction L with
  | nil =>
    intro e h
    exact absurd h (List.not_mem_nil _)
  | cons g rest ih =>
    intro e h
    cases g with
    | raw s2 =>
      have h' : Seg.tok e ∈ Seg.raw s2 :: decS e' rest := h
      rcases List.mem_cons.mp h' with h2 | h2
      · exact Seg.noConfusion h2
      · obtain ⟨h3, h4⟩ := ih e h2
        exact ⟨List.mem_cons_of_mem _ h3, h4⟩
    | tok e2 =>
      have h' : Seg.tok e ∈
          (if getPlaceholderId e2.1 e2.2 = getPlaceholderId e'.1 e'.2 then
            Seg.raw e'.2.secretValue else Seg.tok e2) :: decS e' rest := h
      rcases List.mem_cons.mp h' with h2 | h2
      · by_cases hp : getPlaceholderId e2.1 e2.2 = getPlaceholderId e'.1 e'.2
        · rw [if_pos hp] at h2
          exact Seg.noConfusion h2
        · rw [if_neg hp] at h2
          injection h2 with he
          subst he
          exact ⟨List.mem_cons_self _ _, hp⟩
      · obtain ⟨h3, h4⟩ := ih e h2
        exact ⟨List.mem_cons_of_mem _ h3, h4⟩

theorem decFlat (e' : Str × SecretData)
    (hident' : ∀ ch ∈ getPlaceholderId e'.1 e'.2, identChar ch) :
    ∀ (L : List Seg),
    (∀ s, Seg.raw s ∈ L → '<' ∉ s) →
    (∀ e, Seg.tok e ∈ L → ∀ ch ∈ getPlaceholderId e.1 e.2, identChar ch) →
    replaceOcc (generatePlaceholder e'.1 e'.2) e'.2.secretValue (flatS L) =
      flatS (decS e' L) := by
  intro L
  induction L with
  | nil => exact fun _ _ => replaceOcc_nil _ _
  | cons g rest ih =>
    intro hraw htokI
    have ihx := ih (fun s2 hs2 => hraw s2 (List.mem_cons_of_mem _ hs2))
      (fun e2 he2 => htokI e2 (List.mem_cons_of_mem _ he2))
    cases g with
    | raw s =>
      show replaceOcc (generatePlaceholder e'.1 e'.2) e'.2.secretValue
          (s ++ flatS rest) = s ++ flatS (decS e' rest)
      rw [replaceOcc_append_nohead _ (genP_head e'.1 e'.2) s (flatS rest)
        (hraw s (List.mem_cons_self _ _)), ihx]
    | tok e =>
      by_cases hp : getPlaceholderId e.1 e.2 = getPlaceholderId e'.1 e'.2
      · have hPP : generatePlaceholder e.1 e.2 = generatePlaceholder e'.1 e'.2 :=
          genP_eq_of_pid hp
        have hL : replaceOcc (generatePlaceholder e'.1 e'.2) e'.2.secretValue
            (flatS (Seg.tok e :: rest)) =
            e'.2.secretValue ++ replaceOcc (generatePlaceholder e'.1 e'.2)
              e'.2.secretValue (flatS rest) := by
          show replaceOcc (generatePlaceholder e'.1 e'.2) e'.2.secretValue
              (generatePlaceholder e.1 e.2 ++ flatS rest) = _
          rw [hPP, replaceOcc_eq,
            if_pos ⟨generatePlaceholder_ne_nil e'.1 e'.2,
              List.isPrefixOf_iff_prefix.mpr (List.prefix_append _ _)⟩,
            List.drop_left]
        have hR : flatS (decS e' (Seg.tok e :: rest)) =
            e'.2.secretValue ++ flatS (decS e' rest) := by
          show flatS ((if getPlaceholderId e.1 e.2 =
              getPlaceholderId e'.1 e'.2 then
              Seg.raw e'.2.secretValue else Seg.tok e) :: decS e' rest) = _
          rw [if_pos hp]
          rfl
        rw [hL, hR, ihx]
      · have hb : '!' ∉ getPlaceholderId e.1 e.2 := fun hm =>
          (htokI e (List.mem_cons_self _ _) '!' hm).2.1 rfl
        have ha : '!' ∉ getPlaceholderId e'.1 e'.2 := fun hm =>
          ( hident' '!' hm).2.1 rfl
        have hnopre : ¬ (generatePlaceholder e'.1 e'.2 ≠ [] ∧
            (generatePlaceholder e'.1 e'.2).isPrefixOf
              (generatePlaceholder e.1 e.2 ++ flatS rest) = true) := by
          rintro ⟨_, h2⟩
          exact hp (genP_prefix_eq (flatS rest) ha hb
            (List.isPrefixOf_iff_prefix.mp h2)).symm
        have hint := genP_interior_no_lt (htokI e (List.mem_cons_self _ _))
        have hL : replaceOcc (generatePlaceholder e'.1 e'.2) e'.2.secretValue
            (flatS (Seg.tok e :: rest)) =
            generatePlaceholder e.1 e.2 ++
              replaceOcc (generatePlaceholder e'.1 e'.2) e'.2.secretValue
                (flatS rest) := by
          show replaceOcc (generatePlaceholder e'.1 e'.2) e'.2.secretValue
              (generatePlaceholder e.1 e.2 ++ flatS rest) = _
          rw [replaceOcc_eq _ _
            (generatePlaceholder e.1 e.2 ++ flatS rest), if_neg hnopre]
          show '<' :: replaceOcc (generatePlaceholder e'.1 e'.2)
              e'.2.secretValue
              ((String.toList "!secret_" ++ getPlaceholderId e.1 e.2 ++
                String.toList "!>") ++ flatS rest) = _
          rw [replaceOcc_append_nohead _ (genP_head e'.1 e'.2) _ _ hint]
          rfl
        have hR : flatS (decS e' (Seg.tok e :: rest)) =
            generatePlaceholder e.1 e.2 ++ flatS (decS e' rest) := by
          show flatS ((if getPlaceholderId e.1 e.2 =
              getPlaceholderId e'.1 e'.2 then
              Seg.raw e'.2.secretValue else Seg.tok e) :: decS e' rest) = _
          rw [if_neg hp]
          rfl
        rw [hL, hR, ihx]

theorem decFold : ∀ (E : SecretsMap) (L : List Seg) (b : Bool),
    (∀ e2 ∈ E, '<' ∉ e2.2.secretValue ∧
      ∀ ch ∈ getPlaceholderId e2.1 e2.2, identChar ch) →
    (∀ s, Seg.raw s ∈ L → '<' ∉ s) →
    (∀ e, Seg.tok e ∈ L →
      (∀ ch ∈ getPlaceholderId e.1 e.2, identChar ch) ∧
      (∃ e2 ∈ E, getPlaceholderId e2.1 e2.2 = getPlaceholderId e.1 e.2) ∧
      (∀ e2 ∈ E, getPlaceholderId e2.1 e2.2 = getPlaceholderId e.1 e.2 →
        e2.2.secretValue = e.2.secretValue)) →
    (E.foldl decryptStep (flatS L, b)).1 = undoS L := by
  intro E
  induction E with
  | nil =>
    intro L b _ _ htok
    show flatS L = undoS L
    apply flatS_no_tok
    intro e he
    obtain ⟨_, ⟨e2, he2, _⟩, _⟩ := htok e he
    exact absurd he2 (List.not_mem_nil e2)
  | cons e' E' ih =>
    intro L b hE hraw htok
    rw [List.foldl_cons]
    have hid' : ∀ ch ∈ getPlaceholderId e'.1 e'.2, identChar ch :=
      (hE e' (List.mem_cons_self _ _)).2
    have hfst : (decryptStep (flatS L, b) e').1 = flatS (decS e' L) := by
      rw [decryptStep_fst]
      exact decFlat e' hid' L hraw (fun e2 he2 => (htok e2 he2).1)
    have hpair : decryptStep (flatS L, b) e' =
        (flatS (decS e' L), (decryptStep (flatS L, b) e').2) :=
      Prod.ext hfst rfl
    rw [hpair]
    have hraw2 : ∀ s, Seg.raw s ∈ decS e' L → '<' ∉ s := by
      intro s hs
      rcases decS_raw_mem e' L s hs with h | h
      · exact hraw s h
      · rw [h]
        exact (hE e' (List.mem_cons_self _ _)).1
    have htok2 : ∀ e, Seg.tok e ∈ decS e' L →
        (∀ ch ∈ getPlaceholderId e.1 e.2, identChar ch) ∧
        (∃ e2 ∈ E', getPlaceholderId e2.1 e2.2 = getPlaceholderId e.1 e.2) ∧
        (∀ e2 ∈ E', getPlaceholderId e2.1 e2.2 = getPlaceholderId e.1 e.2 →
          e2.2.secretValue = e.2.secretValue) := by
      intro e he
      obtain ⟨heL, hne⟩ := decS_tok_mem e' L e he
      obtain ⟨h1, ⟨e2, he2, hpid2⟩, h3⟩ := htok e heL
      refine ⟨h1, ⟨e2, ?_, hpid2⟩,
        fun e3 he3 hp => h3 e3 (List.mem_cons_of_mem _ he3) hp⟩
      rcases List.mem_cons.mp he2 with h | h
      · exfalso
        apply hne
        rw [← hpid2, h]
      · exact h
    rw [ih (decS e' L) _ (fun e2 he2 => hE e2 (List.mem_cons_of_mem _ he2))
      hraw2 htok2]
    exact undoS_decS e' L (fun e2 he2 hp =>
      ((htok e2 he2).2.2 e' (List.mem_cons_self _ _) hp.symm).symm)

theorem flatS_segsOf : ∀ (l : List (Str × (Str × SecretData))) (r : Str),
    flatS (segsOf l r) = interTok l r := by
  intro l
  induction l with
  | nil =>
    intro r
    show r ++ [] = r
    exact List.append_nil r
  | cons p rest ih =>
    intro r
    obtain ⟨s, e⟩ := p
    show s ++ (generatePlaceholder e.1 e.2 ++ flatS (segsOf rest r)) =
      s ++ generatePlaceholder e.1 e.2 ++ interTok rest r
    rw [ih, ← List.append_assoc]

theorem undoS_segsOf : ∀ (l : List (Str × (Str × SecretData))) (r : Str),
    undoS (segsOf l r) = undoD l r := by
  intro l
  induction l with
  | nil =>
    intro r
    show r ++ [] = r
    exact List.append_nil r
  | cons p rest ih =>
    intro r
    obtain ⟨s, e⟩ := p
    show s ++ (e.2.secretValue ++ undoS (segsOf rest r)) =
      s ++ e.2.secretValue ++ undoD rest r
    rw [ih, ← List.append_assoc]

theorem segsOf_raw_mem : ∀ (l : List (Str × (Str × SecretData))) (r s : Str),
    Seg.raw s ∈ segsOf l r → (∃ p ∈ l, s = p.1) ∨ s = r := by
  intro l
  induction l with
  | nil =>
    intro r s h
    have h' : Seg.raw s ∈ [Seg.raw r] := h
    have h2 := List.mem_singleton.mp h'
    injection h2 with h3
    exact Or.inr h3
  | cons p rest ih =>
    intro r s h
    obtain ⟨s2, e⟩ := p
    have h' : Seg.raw s ∈ Seg.raw s2 :: Seg.tok e :: segsOf rest r := h
    rcases List.mem_cons.mp h' with h2 | h2
    · injection h2 with h3
      exact Or.inl ⟨(s2, e), List.mem_cons_self _ _, h3⟩
    · rcases List.mem_cons.mp h2 with h3 | h3
      · exact Seg.noConfusion h3
      · rcases ih r s h3 with ⟨p2, hp2, he⟩ | hr
        · exact Or.inl ⟨p2, List.mem_cons_of_mem _ hp2, he⟩
        · exact Or.inr hr

theorem segsOf_tok_mem : ∀ (l : List (Str × (Str × SecretData))) (r : Str)
    (e : Str × SecretData), Seg.tok e ∈ segsOf l r → ∃ p ∈ l, e = p.2 := by
  intro l
  induction l with
  | nil =>
    intro r e h
    have h' : Seg.tok e ∈ [Seg.raw r] := h
    have h2 := List.mem_singleton.mp h'
    exact Seg.noConfusion h2
  | cons p rest ih =>
    intro r e h
    obtain ⟨s2, e2⟩ := p
    have h' : Seg.tok e ∈ Seg.raw s2 :: Seg.tok e2 :: segsOf rest r := h
    rcases List.mem_cons.mp h' with h2 | h2
    · exact Seg.noConfusion h2
    · rcases List.mem_cons.mp h2 with h3 | h3
      · injection h3 with h4
        exact ⟨(s2, e2), List.mem_cons_self _ _, h4⟩
      · obtain ⟨p2, hp2, he⟩ := ih r e h3
        exact ⟨p2, List.mem_cons_of_mem _ hp2, he⟩

theorem pairwise_pid_eq : ∀ (secrets : SecretsMap),
    secrets.Pairwise (fun e1 e2 =>
      getPlaceholderId e1.1 e1.2 ≠ getPlaceholderId e2.1 e2.2) →
    ∀ a ∈ secrets, ∀ b ∈ secrets,
      getPlaceholderId a.1 a.2 = getPlaceholderId b.1 b.2 → a = b := by
  intro secrets
  induction secrets with
  | nil =>
    intro _ a ha
    exact absurd ha (List.not_mem_nil a)
  | cons x rest ih =>
    intro hD a ha b hb hpid
    obtain ⟨hx, hrest⟩ := List.pairwise_cons.mp hD
    rcases List.mem_cons.mp ha with h1 | h1
    · rcases List.mem_cons.mp hb with h2 | h2
      · rw [h1, h2]
      · subst h1
        exact absurd hpid (hx b h2)
    · rcases List.mem_cons.mp hb with h2 | h2
      · subst h2
        exact absurd hpid.symm (hx a h1)
      · exact ih hrest a h1 b h2 hpid

theorem jsJoin_map_singleton (p : Str) : ∀ c : Str,
    jsJoin p (c.map (fun ch => [ch])) = insertBetween p c := by
  intro c
  induction c with
  | nil => rfl
  | cons ch t ih =>
    cases t with
    | nil => rfl
    | cons ch2 t2 =>
      show jsJoin p ([ch] :: (ch2 :: t2).map (fun ch => [ch])) = _
      rw [jsJoin_cons_of_ne_nil (by simp), ih]
      show [ch] ++ p ++ insertBetween p (ch2 :: t2) =
        ch :: (p ++ insertBetween p (ch2 :: t2))
      simp

/-! ## Theorems for the easy claims -/

/-- C6: the entry the scan writes into the stored index carries the
discovered path verbatim.  At the failing input the git root is `/repo`,
git reports `a.txt`, and the persisted entry's path is the absolute
`/repo/a.txt`, not the repository-relative slash form `a.txt` that the
specification (and the index command's own comments) promise. -/
theorem c6_persisted_path_is_discovered_absolute_path :
    indexFiles
        (getGitModifiedFiles (String.toList "/repo") [String.toList "a.txt"]
          (fun p => p == String.toList "/repo/a.txt"))
        (fun p => if p = String.toList "/repo/a.txt"
          then some (String.toList "key=s3cr3t") else none)
        [(String.toList "id1", SecretData.legacy (String.toList "s3cr3t"))]
        none
      = [⟨String.toList "/repo/a.txt", [String.toList "id1"]⟩]
    ∧ String.toList "/repo/a.txt" ≠ String.toList "a.txt" := by decide

/-- C5: at the failing input (git root `/r`, previous index with absolute
paths `/r/A.txt` and `/r/B.txt` exactly as the scan persists them, only
`A.txt` modified, both files still on disk) the incremental merge drops
both entries — the existence check joins the git root onto the already
absolute stored path — so the merged index is empty instead of keeping
`B` and refreshing `A`. -/
theorem c5_incremental_merge_drops_surviving_entries :
    incrementalIndexRun (String.toList "/r") [String.toList "A.txt"]
        (fun p => if p = String.toList "/r/A.txt"
          then some (String.toList "alpha!") else none)
        (fun p => p == String.toList "/r/A.txt" || p == String.toList "/r/B.txt")
        (fun p => p == String.toList "/r/A.txt")
        ⟨[(String.toList "s1", SecretData.legacy (String.toList "alpha")),
          (String.toList "s2", SecretData.legacy (String.toList "beta"))],
          some [⟨String.toList "/r/A.txt", [String.toList "s1"]⟩,
                ⟨String.toList "/r/B.txt", [String.toList "s2"]⟩]⟩
        none
      = []
    ∧ (String.toList "/r/B.txt" == String.toList "/r/A.txt"
        || String.toList "/r/B.txt" == String.toList "/r/B.txt") = true := by decide

/-- C7: no operation leaves an index entry with an empty id set.  The
delete pruning removes the deleted id from every entry and keeps exactly
the entries whose id set stays nonempty, and the scan emits an entry only
when at least one record value occurred in the file. -/
theorem c7_index_entries_never_empty :
    (∀ (idx : List IndexedFile) (id : Str) (f : IndexedFile),
        f ∈ deleteFromIndex idx id → f.secretIds ≠ [] ∧ id ∉ f.secretIds)
  ∧ (∀ (idx : List IndexedFile) (id : Str) (g : IndexedFile), g ∈ idx →
        g.secretIds.filter (· ≠ id) ≠ [] →
        (⟨g.path, g.secretIds.filter (· ≠ id)⟩ : IndexedFile) ∈ deleteFromIndex idx id)
  ∧ (∀ (secrets : SecretsMap) (pattern : Option Str) (fp : Str)
        (ct : Option Str) (f : IndexedFile),
        scanFile secrets pattern fp ct = some f → f.secretIds ≠ []) := by
  refine ⟨?_, ?_, ?_⟩
  · intro idx id f hf
    simp only [deleteFromIndex, List.mem_filter, List.mem_map] at hf
    obtain ⟨⟨g, _, rfl⟩, hne⟩ := hf
    refine ⟨by simpa using hne, ?_⟩
    intro hmem
    simp only [List.mem_filter, decide_eq_true_eq] at hmem
    exact hmem.2 rfl
  · intro idx id g hg hne
    simp only [deleteFromIndex, List.mem_filter, List.mem_map]
    exact ⟨⟨g, hg, rfl⟩, by simpa using hne⟩
  · intro secrets pattern fp ct f h
    unfold scanFile at h
    split at h
    · cases ct with
      | none => exact absurd h (by simp)
      | some c =>
        simp only at h
        split at h
        · exact absurd h (by simp)
        · rename_i hids
          cases h
          exact fun hh => hids hh
    · exact absurd h (by simp)

/-- Witness for the C7 theorem at a concrete index and record id. -/
theorem c7_witness :
    (⟨String.toList "p", [String.toList "y"]⟩ : IndexedFile).secretIds ≠ []
    ∧ String.toList "x" ∉
        (⟨String.toList "p", [String.toList "y"]⟩ : IndexedFile).secretIds :=
  c7_index_entries_never_empty.1
    [⟨String.toList "p", [String.toList "x", String.toList "y"]⟩]
    (String.toList "x") _ (by decide)

/-- C9: adding a record whose value duplicates an existing record's value
fails with the duplicate-value error (carrying the existing record's
placeholder) and the persisted catalogue — records and index — is exactly
the one from before the attempt. -/
theorem c9_duplicate_value_rejection_atomic (store : SecretsStore)
    (uuid secret : Str) (customName desc : Option Str) (created : Str)
    (h : ∃ x ∈ store.secrets, x.2.secretValue = secret) :
    ∃ ph, runAdd store uuid secret customName desc created =
      (store, some (AddError.duplicateValue ph)) := by
  have hsome : (store.secrets.find? (fun e => e.2.secretValue = secret)).isSome := by
    rw [List.find?_isSome]
    obtain ⟨x, hx, hv⟩ := h
    exact ⟨x, hx, by simpa using hv⟩
  obtain ⟨e, he⟩ := Option.isSome_iff_exists.mp hsome
  refine ⟨generatePlaceholder e.1 e.2, ?_⟩
  unfold runAdd addSecret
  rw [he]

/-- Witness for the C9 theorem at a concrete catalogue with a duplicate
value. -/
theorem c9_witness :
    ∃ ph, runAdd
        ⟨[(String.toList "k1", SecretData.legacy (String.toList "v"))], none⟩
        (String.toList "k2") (String.toList "v") none none []
      = (⟨[(String.toList "k1", SecretData.legacy (String.toList "v"))], none⟩,
          some (AddError.duplicateValue ph)) :=
  c9_duplicate_value_rejection_atomic _ _ _ _ _ _
    ⟨(String.toList "k1", SecretData.legacy (String.toList "v")), by decide, by decide⟩

theorem findSecretByIdentifier_of_name {secrets : SecretsMap} {i : Str}
    {e : Str × SecretData} (h : findSecretByName secrets i = some e) :
    findSecretByIdentifier secrets i = some e := by
  unfold findSecretByIdentifier
  rw [h]

theorem findSecretByIdentifier_of_no_name {secrets : SecretsMap} {i : Str}
    (h1 : findSecretByName secrets i = none) :
    findSecretByIdentifier secrets i =
      (match jsObjGet secrets i with
        | some d => if d.truthy then some (i, d) else none
        | none => none) := by
  unfold findSecretByIdentifier
  rw [h1]

/-- C8 amended: resolution returns the first record (in catalogue order)
whose display name equals the identifier; only when no record anywhere in
the catalogue has that display name does it fall back to the record
stored under the identifier as its key — and that id hit is returned only
when its stored value is truthy (an object, or a nonempty legacy string).
In particular a display-name match on one record beats a key match on any
other record. -/
theorem c8_amended_resolution_precedence (secrets : SecretsMap) (identifier : Str)
    (r : Str × SecretData) :
    findSecretByIdentifier secrets identifier = some r ↔
      ((isNameMatch identifier r = true ∧
          ∃ pre post, secrets = pre ++ r :: post ∧
            ∀ x ∈ pre, isNameMatch identifier x = false)
        ∨ ((∀ x ∈ secrets, isNameMatch identifier x = false) ∧
            r.1 = identifier ∧ r.2.truthy = true ∧
            ∃ pre post, secrets = pre ++ r :: post ∧ ∀ x ∈ pre, x.1 ≠ identifier)) := by
  constructor
  · intro h
    cases hname : findSecretByName secrets identifier with
    | some e =>
      rw [findSecretByIdentifier_of_name hname, Option.some.injEq] at h
      subst h
      left
      have hc := List.find?_eq_some.mp hname
      obtain ⟨pre, post, hsplit, hpre⟩ := hc.2
      exact ⟨hc.1, pre, post, hsplit, fun x hx => by simpa using hpre x hx⟩
    | none =>
      rw [findSecretByIdentifier_of_no_name hname] at h
      have hnone := List.find?_eq_none.mp hname
      cases hkey : jsObjGet secrets identifier with
      | none => rw [hkey] at h; exact absurd h (by simp)
      | some d =>
        rw [hkey] at h
        have h2 : (if d.truthy = true then some (identifier, d) else none) = some r := h
        clear h
        by_cases ht : d.truthy
        · rw [if_pos ht, Option.some.injEq] at h2
          subst h2
          right
          refine ⟨fun x hx => by simpa using hnone x hx, rfl, ht, ?_⟩
          unfold jsObjGet at hkey
          cases hfind : secrets.find? (fun e => e.1 = identifier) with
          | none => rw [hfind] at hkey; exact absurd hkey (by simp)
          | some e =>
            rw [hfind] at hkey
            simp only [Option.map_some', Option.some.injEq] at hkey
            have hc := List.find?_eq_some.mp hfind
            obtain ⟨pre, post, hsplit, hpre⟩ := hc.2
            have he1 : e.1 = identifier := by simpa using hc.1
            have he : e = (identifier, d) := by
              cases e; cases he1; cases hkey; rfl
            subst he
            exact ⟨pre, post, hsplit, fun x hx => by simpa using hpre x hx⟩
        · rw [if_neg ht] at h2
          exact absurd h2 (by simp)
  · rintro (⟨hm, pre, post, hsplit, hpre⟩ | ⟨hall, hid, ht, pre, post, hsplit, hpre⟩)
    · have hname : findSecretByName secrets identifier = some r :=
        List.find?_eq_some.mpr ⟨hm, pre, post, hsplit, fun x hx => by simpa using hpre x hx⟩
      exact findSecretByIdentifier_of_name hname
    · have hname : findSecretByName secrets identifier = none := by
        unfold findSecretByName
        rw [List.find?_eq_none]
        intro x hx
        simp [hall x hx]
      have hkey : jsObjGet secrets identifier = some r.2 := by
        unfold jsObjGet
        have hf : secrets.find? (fun e => e.1 = identifier) = some r :=
          List.find?_eq_some.mpr
            ⟨by simpa using hid, pre, post, hsplit, fun x hx => by simpa using hpre x hx⟩
        rw [hf]
        rfl
      rw [findSecretByIdentifier_of_no_name hname, hkey]
      show (if r.2.truthy = true then some (identifier, r.2) else none) = some r
      rw [if_pos ht]
      obtain ⟨r1, r2⟩ := r
      cases hid
      rfl

/-- Witness for the amended C8 theorem: a concrete catalogue in which the
first record's display name equals the second record's key; resolution
returns the named record. -/
theorem c8_witness :
    (isNameMatch (String.toList "7f") (String.toList "u1",
        SecretData.record (String.toList "s") none none (some (String.toList "7f"))) = true ∧
      ∃ pre post,
        [(String.toList "u1",
            SecretData.record (String.toList "s") none none (some (String.toList "7f"))),
          (String.toList "7f", SecretData.legacy (String.toList "t"))] =
          pre ++ (String.toList "u1",
            SecretData.record (String.toList "s") none none (some (String.toList "7f"))) :: post ∧
          ∀ x ∈ pre, isNameMatch (String.toList "7f") x = false)
    ∨ ((∀ x ∈ [(String.toList "u1",
          SecretData.record (String.toList "s") none none (some (String.toList "7f"))),
          (String.toList "7f", SecretData.legacy (String.toList "t"))],
          isNameMatch (String.toList "7f") x = false) ∧
        (String.toList "u1",
          SecretData.record (String.toList "s") none none
            (some (String.toList "7f"))).1 = String.toList "7f" ∧
        (String.toList "u1",
          SecretData.record (String.toList "s") none none
            (some (String.toList "7f"))).2.truthy = true ∧
        ∃ pre post,
          [(String.toList "u1",
              SecretData.record (String.toList "s") none none (some (String.toList "7f"))),
            (String.toList "7f", SecretData.legacy (String.toList "t"))] =
            pre ++ (String.toList "u1",
              SecretData.record (String.toList "s") none none
                (some (String.toList "7f"))) :: post ∧
            ∀ x ∈ pre, x.1 ≠ String.toList "7f") :=
  (c8_amended_resolution_precedence
      [(String.toList "u1",
          SecretData.record (String.toList "s") none none (some (String.toList "7f"))),
        (String.toList "7f", SecretData.legacy (String.toList "t"))]
      (String.toList "7f")
      (String.toList "u1",
        SecretData.record (String.toList "s") none none (some (String.toList "7f")))).mp
    (by decide)

/-- C4 (amended): `getRedactedFilePath` always rebuilds the basename as
`nameWithoutExt ++ ".redacted" ++ ext`, so for a basename with a nonempty
Node extension the infix lands immediately before the extension; on such
paths (whenever the path is the join of its own dirname and basename, i.e.
it is already normalized) `getOriginalFilePath` inverts the transform
exactly.  For extensionless basenames the insertion still happens at the
(empty) extension position, but `getOriginalFilePath` is NOT an inverse
there: the redacted path is its own fixed point, because the trailing
`.redacted` is parsed as the extension and never stripped. -/
theorem c4_amended_redaction_inverse_with_extension (p : Str) :
    posixBasename (getRedactedFilePath p) =
      posixBasenameExt (posixBasename p) (posixExtname (posixBasename p)) ++
        String.toList ".redacted" ++ posixExtname (posixBasename p)
    ∧ (posixJoin2 (posixDirname p) (posixBasename p) = p →
        posixExtname (posixBasename p) ≠ [] →
        getOriginalFilePath (getRedactedFilePath p) = p)
    ∧ (posixBasename p ≠ [] → posixExtname (posixBasename p) = [] →
        ¬ (String.toList ".redacted") <:+ posixBasename p →
        getOriginalFilePath (getRedactedFilePath p) = getRedactedFilePath p) := by
  have hbnosl : '/' ∉ posixBasename p := posixBasename_no_sep p
  refine ⟨?_, ?_, ?_⟩
  · show posixBasename (posixJoin2 (posixDirname p)
        (posixBasenameExt (posixBasename p) (posixExtname (posixBasename p)) ++
          String.toList ".redacted" ++ posixExtname (posixBasename p))) = _
    exact posixBasename_posixJoin2 (posixDirname_ne_nil p)
      (redactedBasename_cleanSeg _ _ (posixBasenameExt_no_sep _ _)
        (fun hm => hbnosl (posixExtname_mem_subset '/' hm)))
  · intro hre hext
    obtain ⟨stem, e, hbdec, hedot, hstem, hextval⟩ := posixExtname_decomp hext
    have hstemnosl : '/' ∉ stem ++ '.' :: e := by
      rw [← hbdec]
      exact hbnosl
    have hstrip : posixBasenameExt (posixBasename p)
        (posixExtname (posixBasename p)) = stem := by
      rw [hextval, hbdec]
      exact posixBasenameExt_strip hstem (by simp) hstemnosl
    have hred : getRedactedFilePath p = posixJoin2 (posixDirname p)
        (stem ++ String.toList ".redacted" ++ '.' :: e) := by
      show posixJoin2 (posixDirname p)
          (posixBasenameExt (posixBasename p) (posixExtname (posixBasename p)) ++
            String.toList ".redacted" ++ posixExtname (posixBasename p)) = _
      rw [hstrip, hextval]
    have hslstem : '/' ∉ stem := by
      intro hm
      exact hstemnosl (List.mem_append_left _ hm)
    have hnosl_e : '/' ∉ ('.' :: e : Str) := by
      intro hm
      exact hstemnosl (List.mem_append_right _ hm)
    have hclean : cleanSeg (stem ++ String.toList ".redacted" ++ '.' :: e) :=
      redactedBasename_cleanSeg _ _ hslstem hnosl_e
    have hbn : posixBasename (getRedactedFilePath p) =
        stem ++ String.toList ".redacted" ++ '.' :: e := by
      rw [hred]
      exact posixBasename_posixJoin2 (posixDirname_ne_nil p) hclean
    have h9 : (String.toList ".redacted").length = 9 := rfl
    have hextq : posixExtname (stem ++ String.toList ".redacted" ++ '.' :: e) =
        '.' :: e := by
      refine posixExtname_of_decomp ?_ hedot ?_
      · intro hq
        exact absurd (List.append_eq_nil.mp hq).2 (by decide)
      · intro hq
        have hl := congrArg List.length hq
        simp only [List.length_append, List.length_cons, List.length_nil] at hl
        omega
    have hnweq : posixBasenameExt (stem ++ String.toList ".redacted" ++ '.' :: e)
        ('.' :: e) = stem ++ String.toList ".redacted" := by
      refine posixBasenameExt_strip ?_ (by simp) hclean.2.1
      intro hq
      exact absurd (List.append_eq_nil.mp hq).2 (by decide)
    have horig : getOriginalFilePath (getRedactedFilePath p) =
        posixJoin2 (posixDirname (getRedactedFilePath p)) (stem ++ '.' :: e) := by
      show posixJoin2 (posixDirname (getRedactedFilePath p))
          (stripRedactedSuffix
            (posixBasenameExt (posixBasename (getRedactedFilePath p))
              (posixExtname (posixBasename (getRedactedFilePath p)))) ++
            posixExtname (posixBasename (getRedactedFilePath p))) = _
      rw [hbn, hextq, hnweq, stripRedactedSuffix_append]
    have hcleanb : cleanSeg (stem ++ '.' :: e) := by
      rw [← hbdec]
      exact ⟨fun hq => hext (by rw [hq]; decide), hbnosl,
        fun hq => hext (by rw [hq]; decide), fun hq => hext (by rw [hq]; decide)⟩
    calc getOriginalFilePath (getRedactedFilePath p)
        = posixJoin2 (posixDirname (posixJoin2 (posixDirname p)
            (stem ++ String.toList ".redacted" ++ '.' :: e))) (stem ++ '.' :: e) := by
          rw [horig, hred]
      _ = posixJoin2 (posixDirname p) (stem ++ '.' :: e) :=
          posixJoin2_posixDirname_posixJoin2 (posixDirname_ne_nil p) hclean hcleanb
      _ = posixJoin2 (posixDirname p) (posixBasename p) := by rw [← hbdec]
      _ = p := hre
  · intro hb hext0 hnosuf
    have hR : String.toList ".redacted" = '.' :: String.toList "redacted" := rfl
    have hred : getRedactedFilePath p = posixJoin2 (posixDirname p)
        (posixBasename p ++ String.toList ".redacted") := by
      show posixJoin2 (posixDirname p)
          (posixBasenameExt (posixBasename p) (posixExtname (posixBasename p)) ++
            String.toList ".redacted" ++ posixExtname (posixBasename p)) = _
      rw [hext0, posixBasenameExt_empty_ext, posixBasename_of_no_sep hbnosl,
        List.append_nil]
    have hcleanq : cleanSeg (posixBasename p ++ String.toList ".redacted") := by
      have h0 := redactedBasename_cleanSeg (posixBasename p) [] hbnosl (by simp)
      rwa [List.append_nil] at h0
    have hbn : posixBasename (getRedactedFilePath p) =
        posixBasename p ++ String.toList ".redacted" := by
      rw [hred]
      exact posixBasename_posixJoin2 (posixDirname_ne_nil p) hcleanq
    have h8 : (String.toList "redacted").length = 8 := rfl
    have hextq : posixExtname (posixBasename p ++ String.toList ".redacted") =
        String.toList ".redacted" := by
      rw [hR]
      refine posixExtname_of_decomp hb (by decide) ?_
      intro hq
      have hl := congrArg List.length hq
      simp only [List.length_append, List.length_cons, List.length_nil] at hl
      omega
    have hnweq : posixBasenameExt (posixBasename p ++ String.toList ".redacted")
        (String.toList ".redacted") = posixBasename p :=
      posixBasenameExt_strip hb (by decide) hcleanq.2.1
    have horig : getOriginalFilePath (getRedactedFilePath p) =
        posixJoin2 (posixDirname (getRedactedFilePath p))
          (posixBasename p ++ String.toList ".redacted") := by
      show posixJoin2 (posixDirname (getRedactedFilePath p))
          (stripRedactedSuffix
            (posixBasenameExt (posixBasename (getRedactedFilePath p))
              (posixExtname (posixBasename (getRedactedFilePath p)))) ++
            posixExtname (posixBasename (getRedactedFilePath p))) = _
      rw [hbn, hextq, hnweq, stripRedactedSuffix_of_no_suffix hnosuf]
    calc getOriginalFilePath (getRedactedFilePath p)
        = posixJoin2 (posixDirname (posixJoin2 (posixDirname p)
            (posixBasename p ++ String.toList ".redacted")))
            (posixBasename p ++ String.toList ".redacted") := by
          rw [horig, hred]
      _ = posixJoin2 (posixDirname p)
            (posixBasename p ++ String.toList ".redacted") :=
          posixJoin2_posixDirname_posixJoin2 (posixDirname_ne_nil p) hcleanq hcleanq
      _ = getRedactedFilePath p := hred.symm

/-- C4 witness: the amended theorem applied to the normalized path
`dir/file.json`, whose basename carries the extension `.json`: the round
trip through the redacted sibling `dir/file.redacted.json` restores it. -/
theorem c4_amended_witness :
    getOriginalFilePath (getRedactedFilePath (String.toList "dir/file.json")) =
      String.toList "dir/file.json" :=
  (c4_amended_redaction_inverse_with_extension
      (String.toList "dir/file.json")).2.1 (by decide) (by decide)

/-- C2 (amended): decrypting the encrypted file reproduces the original
content exactly, for catalogues whose secret values are nonempty and free
of the delimiter characters `<` and `>`, whose values never occur inside
any record's placeholder token, whose placeholder identifiers use no
delimiter character and are pairwise distinct, and for file content with
no `<` (hence no pre-existing placeholder text).  The claim's own
hypothesis — values pairwise not substrings of one another — is neither
needed here nor sufficient on its own (see the counterexample). -/
theorem c2_amended_round_trip (secrets : SecretsMap) (c : Str)
    (hV : ∀ e ∈ secrets, e.2.secretValue ≠ [] ∧ '<' ∉ e.2.secretValue ∧
      '>' ∉ e.2.secretValue)
    (hT : ∀ e1 ∈ secrets, ∀ e2 ∈ secrets,
      ¬ e1.2.secretValue <:+: generatePlaceholder e2.1 e2.2)
    (hI : ∀ e ∈ secrets, ∀ ch ∈ getPlaceholderId e.1 e.2, identChar ch)
    (hD : secrets.Pairwise (fun e1 e2 =>
      getPlaceholderId e1.1 e1.2 ≠ getPlaceholderId e2.1 e2.2))
    (hC : '<' ∉ c) :
    (decryptContent secrets (encryptContent secrets c).1).1 = c := by
  obtain ⟨l2, r2, hfold, hpieces, hents, hr2, _, hundo⟩ :=
    encFold secrets [] c false hV
      (fun e2 _ p hp => absurd hp (List.not_mem_nil p)) hT
  have henc : (encryptContent secrets c).1 = interTok l2 r2 := hfold
  have hpc : ∀ q ∈ l2, q.1 <:+: c := by
    intro q hq
    rcases hpieces q hq with ⟨p, hp, _⟩ | h
    · exact absurd hp (List.not_mem_nil p)
    · exact h
  have hec : ∀ q ∈ l2, q.2 ∈ secrets := by
    intro q hq
    rcases hents q hq with h | ⟨p, hp, _⟩
    · exact h
    · exact absurd hp (List.not_mem_nil p)
  have hrc : r2 <:+: c := by
    rcases hr2 with ⟨p, hp, _⟩ | h
    · exact absurd hp (List.not_mem_nil p)
    · exact h
  have hraw : ∀ s, Seg.raw s ∈ segsOf l2 r2 → '<' ∉ s := by
    intro s hs hmem
    rcases segsOf_raw_mem l2 r2 s hs with ⟨p, hp, hsp⟩ | hsr
    · exact hC ((hpc p hp).subset (hsp ▸ hmem))
    · exact hC (hrc.subset (hsr ▸ hmem))
  have htok : ∀ e, Seg.tok e ∈ segsOf l2 r2 →
      (∀ ch ∈ getPlaceholderId e.1 e.2, identChar ch) ∧
      (∃ e2 ∈ secrets, getPlaceholderId e2.1 e2.2 = getPlaceholderId e.1 e.2) ∧
      (∀ e2 ∈ secrets, getPlaceholderId e2.1 e2.2 = getPlaceholderId e.1 e.2 →
        e2.2.secretValue = e.2.secretValue) := by
    intro e he
    obtain ⟨p, hp, hep⟩ := segsOf_tok_mem l2 r2 e he
    have hes : e ∈ secrets := by
      rw [hep]
      exact hec p hp
    refine ⟨hI e hes, ⟨e, hes, rfl⟩, ?_⟩
    intro e2 he2 hpid
    rw [pairwise_pid_eq secrets hD e2 he2 e hes hpid]
  have hdec := decFold secrets (segsOf l2 r2) false
    (fun e2 he2 => ⟨(hV e2 he2).2.1, hI e2 he2⟩) hraw htok
  calc (decryptContent secrets (encryptContent secrets c).1).1
      = (secrets.foldl decryptStep (flatS (segsOf l2 r2), false)).1 := by
        show (secrets.foldl decryptStep ((encryptContent secrets c).1, false)).1 = _
        rw [henc, flatS_segsOf]
    _ = undoS (segsOf l2 r2) := hdec
    _ = undoD l2 r2 := undoS_segsOf l2 r2
    _ = c := hundo

/-- C2 witness: a two-record catalogue (one named record, one legacy
record) and a `<`-free file containing both values round-trips exactly. -/
theorem c2_amended_round_trip_witness :
    (decryptContent
        [(String.toList "a7",
          SecretData.record (String.toList "hunter2") none none
            (some (String.toList "pw"))),
          (String.toList "b9", SecretData.legacy (String.toList "swordfish"))]
        (encryptContent
          [(String.toList "a7",
            SecretData.record (String.toList "hunter2") none none
              (some (String.toList "pw"))),
            (String.toList "b9", SecretData.legacy (String.toList "swordfish"))]
          (String.toList "use hunter2 or swordfish.")).1).1
      = String.toList "use hunter2 or swordfish." :=
  c2_amended_round_trip
    [(String.toList "a7",
      SecretData.record (String.toList "hunter2") none none
        (some (String.toList "pw"))),
      (String.toList "b9", SecretData.legacy (String.toList "swordfish"))]
    (String.toList "use hunter2 or swordfish.")
    (by decide) (by decide) (by decide) (by decide) (by decide)

/-- C3 (amended): with nonempty, delimiter-free secret values that do not
occur inside any placeholder token, and `<`-free original content, the
first encryption call reports changed as soon as some record's value
occurs in the file, and a second encryption call is the identity: it
leaves the content byte-identical and reports unchanged (for any file
content).  Without the freshness hypotheses the second call can fire
again — see the counterexample with value `secret_`. -/
theorem c3_amended_second_encrypt_identity (secrets : SecretsMap) (c : Str)
    (hV : ∀ e ∈ secrets, e.2.secretValue ≠ [] ∧ '<' ∉ e.2.secretValue ∧
      '>' ∉ e.2.secretValue)
    (hT : ∀ e1 ∈ secrets, ∀ e2 ∈ secrets,
      ¬ e1.2.secretValue <:+: generatePlaceholder e2.1 e2.2) :
    ((∃ e ∈ secrets, e.2.secretValue <:+: c) →
      (encryptContent secrets c).2 = true) ∧
    encryptContent secrets (encryptContent secrets c).1 =
      ((encryptContent secrets c).1, false) := by
  constructor
  · rintro ⟨e, he, hocc⟩
    cases hb : (encryptContent secrets c).2 with
    | true => rfl
    | false =>
      exfalso
      have hfalse : (secrets.foldl encryptStep (c, false)).2 = false := hb
      obtain ⟨_, hnone⟩ := encFold_flag_false secrets c hfalse
      exact absurd ((jsIncludes_iff.mpr hocc).symm.trans (hnone e he)) (by decide)
  · obtain ⟨l2, r2, hfold, hpieces, hents, hr2, hvfree, _⟩ :=
      encFold secrets [] c false hV
        (fun e2 _ p hp => absurd hp (List.not_mem_nil p)) hT
    have henc : (encryptContent secrets c).1 = interTok l2 r2 := hfold
    have hnoocc : ∀ e2 ∈ secrets,
        jsIncludes (encryptContent secrets c).1 e2.2.secretValue = false := by
      intro e2 he2
      obtain ⟨_, hlt, hgt⟩ := hV e2 he2
      have hfree := hvfree e2 he2
      have hno : ¬ e2.2.secretValue <:+: interTok l2 r2 := by
        refine interTok_no_occ hlt hgt l2 r2 (fun p hp => ⟨hfree.1 p hp, ?_⟩)
          hfree.2
        have hp2 : p.2 ∈ secrets := by
          rcases hents p hp with h | ⟨p3, hp3, _⟩
          · exact h
          · exact absurd hp3 (List.not_mem_nil p3)
        exact hT e2 he2 p.2 hp2
      rw [henc]
      cases hb : jsIncludes (interTok l2 r2) e2.2.secretValue with
      | false => rfl
      | true => exact absurd (jsIncludes_iff.mp hb) hno
    show secrets.foldl encryptStep ((encryptContent secrets c).1, false) = _
    exact encFold_id secrets _ hnoocc

/-- C3 witness: on the two-record catalogue and a file containing the
first value, the first call reports changed and the second call returns
the first call's content with the unchanged flag. -/
theorem c3_amended_second_encrypt_identity_witness :
    (encryptContent
        [(String.toList "a7",
          SecretData.record (String.toList "hunter2") none none
            (some (String.toList "pw"))),
          (String.toList "b9", SecretData.legacy (String.toList "swordfish"))]
        (String.toList "pw is hunter2")).2 = true ∧
    encryptContent
        [(String.toList "a7",
          SecretData.record (String.toList "hunter2") none none
            (some (String.toList "pw"))),
          (String.toList "b9", SecretData.legacy (String.toList "swordfish"))]
        (encryptContent
          [(String.toList "a7",
            SecretData.record (String.toList "hunter2") none none
              (some (String.toList "pw"))),
            (String.toList "b9", SecretData.legacy (String.toList "swordfish"))]
          (String.toList "pw is hunter2")).1 =
      ((encryptContent
          [(String.toList "a7",
            SecretData.record (String.toList "hunter2") none none
              (some (String.toList "pw"))),
            (String.toList "b9", SecretData.legacy (String.toList "swordfish"))]
          (String.toList "pw is hunter2")).1, false) :=
  ⟨(c3_amended_second_encrypt_identity
      [(String.toList "a7",
        SecretData.record (String.toList "hunter2") none none
          (some (String.toList "pw"))),
        (String.toList "b9", SecretData.legacy (String.toList "swordfish"))]
      (String.toList "pw is hunter2")
      (by decide) (by decide)).1 (by decide),
    (c3_amended_second_encrypt_identity
      [(String.toList "a7",
        SecretData.record (String.toList "hunter2") none none
          (some (String.toList "pw"))),
        (String.toList "b9", SecretData.legacy (String.toList "swordfish"))]
      (String.toList "pw is hunter2")
      (by decide) (by decide)).2⟩

/-- C10 (amended): a record with an empty secret value makes the
substitution core report every file as changed; on a one-record catalogue
the rewritten content is the original with the placeholder inserted
between every pair of adjacent characters (only between characters, not
at the two ends — see the counterexample); and the scan indexes every
readable candidate file as containing that record. -/
theorem c10_amended_empty_value_behaviour (secrets : SecretsMap)
    (c fp k : Str) (d : SecretData) :
    ((∃ e ∈ secrets, e.2.secretValue = []) →
      (encryptContent secrets c).2 = true) ∧
    (d.secretValue = [] →
      encryptContent [(k, d)] c =
        (insertBetween (generatePlaceholder k d) c, true)) ∧
    ((k, d) ∈ secrets → d.secretValue = [] →
      ∃ entry, scanFile secrets none fp (some c) = some entry ∧
        k ∈ entry.secretIds ∧ entry.path = fp) := by
  refine ⟨fun h => enc_changed_of_empty secrets (c, false) h, ?_, ?_⟩
  · intro hval
    show encryptStep (c, false) (k, d) = _
    show (if jsIncludes c d.secretValue then
        (jsJoin (generatePlaceholder k d) (jsSplit c d.secretValue), true)
      else (c, false)) = _
    rw [hval, if_pos (jsIncludes_nil_pat c)]
    show (jsJoin (generatePlaceholder k d) (c.map (fun ch => [ch])), true) = _
    rw [jsJoin_map_singleton]
  · intro hmem hval
    have hkmem : k ∈ (secrets.filter
        (fun e => jsIncludes c e.2.secretValue)).map (fun e => e.1) := by
      refine List.mem_map.mpr ⟨(k, d), List.mem_filter.mpr ⟨hmem, ?_⟩, rfl⟩
      show jsIncludes c d.secretValue = true
      rw [hval]
      exact jsIncludes_nil_pat c
    have hne : (secrets.filter
        (fun e => jsIncludes c e.2.secretValue)).map (fun e => e.1) ≠ [] := by
      intro hh
      rw [hh] at hkmem
      exact List.not_mem_nil k hkmem
    refine ⟨⟨fp, (secrets.filter
        (fun e => jsIncludes c e.2.secretValue)).map (fun e => e.1)⟩,
      ?_, hkmem, rfl⟩
    show (if (secrets.filter
        (fun e => jsIncludes c e.2.secretValue)).map (fun e => e.1) = []
      then none
      else some (⟨fp, (secrets.filter
        (fun e => jsIncludes c e.2.secretValue)).map (fun e => e.1)⟩ :
          IndexedFile)) = _
    rw [if_neg hne]

/-- C10 witness: the amended theorem's interleaving conjunct at the
one-record catalogue with empty value named `n` and content `ab`. -/
theorem c10_amended_empty_value_witness :
    encryptContent
        [(String.toList "k1",
          SecretData.record [] none none (some (String.toList "n")))]
        (String.toList "ab") =
      (insertBetween
        (generatePlaceholder (String.toList "k1")
          (SecretData.record [] none none (some (String.toList "n"))))
        (String.toList "ab"), true) :=
  (c10_amended_empty_value_behaviour
      [(String.toList "k1",
        SecretData.record [] none none (some (String.toList "n")))]
      (String.toList "ab") (String.toList "f.txt") (String.toList "k1")
      (SecretData.record [] none none (some (String.toList "n")))).2.1 rfl

/-- C2 counterexample: one record with value `B` named `y` (a one-record
catalogue trivially has no value that is a substring of another), file
content equal to the placeholder token `<!secret_y!>`.  Encryption leaves
the file alone (no `B` in it), decryption then replaces the pre-existing
token, so the round trip returns `B`, not the original content. -/
theorem c2_counterexample_round_trip_fails :
    (decryptContent
        [(String.toList "y-id",
          SecretData.record (String.toList "B") none none (some (String.toList "y")))]
        (encryptContent
          [(String.toList "y-id",
            SecretData.record (String.toList "B") none none (some (String.toList "y")))]
          (String.toList "<!secret_y!>")).1).1
      = String.toList "B"
    ∧ String.toList "B" ≠ String.toList "<!secret_y!>" := by decide

/-- C3 counterexample: catalogue with records `a` (value `x`) and `b`
(value `secret_`), file content `x` (which contains the first secret).
The first encryption call reports changed as the claim says, but the
second call again finds `secret_` inside the placeholder text produced by
the first call: it reports changed a second time and alters the content
again. -/
theorem c3_counterexample_second_encrypt_changes :
    (encryptContent
        [(String.toList "a1",
          SecretData.record (String.toList "x") none none (some (String.toList "a"))),
          (String.toList "b1",
          SecretData.record (String.toList "secret_") none none (some (String.toList "b")))]
        (String.toList "x")).2 = true
    ∧ (encryptContent
        [(String.toList "a1",
          SecretData.record (String.toList "x") none none (some (String.toList "a"))),
          (String.toList "b1",
          SecretData.record (String.toList "secret_") none none (some (String.toList "b")))]
        (encryptContent
          [(String.toList "a1",
            SecretData.record (String.toList "x") none none (some (String.toList "a"))),
            (String.toList "b1",
            SecretData.record (String.toList "secret_") none none (some (String.toList "b")))]
          (String.toList "x")).1).2 = true
    ∧ (encryptContent
        [(String.toList "a1",
          SecretData.record (String.toList "x") none none (some (String.toList "a"))),
          (String.toList "b1",
          SecretData.record (String.toList "secret_") none none (some (String.toList "b")))]
        (encryptContent
          [(String.toList "a1",
            SecretData.record (String.toList "x") none none (some (String.toList "a"))),
            (String.toList "b1",
            SecretData.record (String.toList "secret_") none none (some (String.toList "b")))]
          (String.toList "x")).1).1
      ≠ (encryptContent
          [(String.toList "a1",
            SecretData.record (String.toList "x") none none (some (String.toList "a"))),
            (String.toList "b1",
            SecretData.record (String.toList "secret_") none none (some (String.toList "b")))]
          (String.toList "x")).1 := by decide

/-- C4 counterexample: for the extensionless path `name`, the redacted
path is `name.redacted`, and `getOriginalFilePath` maps it to itself (the
trailing `.redacted` is parsed as the extension and therefore never
stripped), not back to `name`. -/
theorem c4_counterexample_extensionless_not_inverted :
    getOriginalFilePath (getRedactedFilePath (String.toList "name"))
      = String.toList "name.redacted"
    ∧ String.toList "name.redacted" ≠ String.toList "name" := by decide

/-- C8 counterexample: a catalogue whose record under key `k` is a legacy
empty-string value.  No display name matches, the identifier `k` is a
stored key — an id hit — yet the lookup returns nothing, because the id
branch is guarded by JavaScript truthiness of the stored value. -/
theorem c8_counterexample_falsy_id_hit_skipped :
    findSecretByName [(String.toList "k", SecretData.legacy [])] (String.toList "k") = none
    ∧ jsObjGet [(String.toList "k", SecretData.legacy [])] (String.toList "k")
        = some (SecretData.legacy [])
    ∧ findSecretByIdentifier [(String.toList "k", SecretData.legacy [])]
        (String.toList "k") = none := by decide

/-- C10 counterexample: with a record of empty value named `n` and file
content `ab`, the rewritten content is `a<!secret_n!>b` — the placeholder
is inserted between adjacent characters only, not at the two ends. -/
theorem c10_counterexample_no_insertion_at_ends :
    (encryptContent
        [(String.toList "i1", SecretData.record [] none none (some (String.toList "n")))]
        (String.toList "ab")).1
      = String.toList "a<!secret_n!>b"
    ∧ String.toList "a<!secret_n!>b"
      ≠ String.toList "<!secret_n!>a<!secret_n!>b<!secret_n!>" := by decide

end USM
